import Mathlib

set_option maxHeartbeats 1000000

namespace UvPipTree

/-- Marker expressions are opaque boolean predicates over the list of activated
extra names (the environment itself is fixed for a whole render, so it is not a
parameter). This models the call
marker.evaluate_optional_environment(None, extras) from src/crates/uv/src/commands/pip/tree.rs. -/
def Marker : Type := List String → Bool

/-- Application of a marker to an activation set of extras. -/
def markerEval (m : Marker) (extras : List String) : Bool := m extras

/-- Requirement record: target package name plus optional marker, the part of
pypi_types::Requirement that tree.rs reads (fields name and marker). -/
structure Requirement where
  name : String
  marker : Option Marker

/-- Package metadata as read by tree.rs: the requires_dist list and the
provides_extras list. -/
structure Metadata where
  requires_dist : List Requirement
  provides_extras : List String

/-- Installed distribution: name (already normalized), version (displayed
opaquely) and the result of metadata(), which in the source returns a Result;
none models a metadata read failure. -/
structure InstalledDist where
  name : String
  version : String
  metadata : Option Metadata

/-- State of DisplayDependencyGraph (tree.rs lines 80-100): the ordered
installed-package collection, maximum display depth, prune list and the
no_dedupe flag. The two derived maps of new() are recomputed by the
functions below from site_packages. -/
structure DisplayDependencyGraph where
  site_packages : List InstalledDist
  depth : Nat
  prune : List String
  no_dedupe : Bool

/-- Model of the dist_by_package_name HashMap built in new() (tree.rs lines
110-114): iterate the packages in order and insert each under its name.
HashMap::insert replaces an existing entry, so a later package with the same
name shadows an earlier one; the foldl keeps the last match accordingly. -/
def dist_by_package_name (pkgs : List InstalledDist) (n : String) : Option InstalledDist :=
  pkgs.foldl (fun acc p => if p.name = n then some p else acc) none

/-- Model of the required_packages HashSet built in new() (tree.rs lines
115-126): for every package, unwrap its metadata (a read failure, modelled by
none, panics: the whole construction yields none) and record the names of the
requirements whose target is an installed package. Only membership in the
result is ever consulted, so a list is used for the set. Note the filter does
not consult markers. -/
def required_packages (all : List InstalledDist) : List InstalledDist → Option (List String)
  | [] => some []
  | p :: rest =>
    match p.metadata with
    | none => none
    | some m =>
      match required_packages all rest with
      | none => none
      | some acc =>
        some ((((m.requires_dist.filter
            (fun r => (dist_by_package_name all r.name).isSome)).map
              Requirement.name)) ++ acc)

/-- Line rendered for one package (tree.rs lines 162-172): an optional
bracketed extra label, the package name, and the version preceded by a space
and the letter v. -/
def lineFor (extra : Option String) (d : InstalledDist) : String :=
  (match extra with
   | some extra_name => "[" ++ extra_name ++ "] "
   | none => "") ++ d.name ++ " v" ++ d.version

/-- Prefixing of an already-rendered subtree block (tree.rs lines 250-274):
the first line receives the connector, every further line the continuation. -/
def prefixLines (ptop prest : String) : List String → List String
  | [] => []
  | l :: rest => (ptop ++ l) :: rest.map (fun s => prest ++ s)

mutual

/-- Depth-first visit of one installed distribution (tree.rs lines 139-279).
Returns the rendered lines together with the updated visited set; none models
a panic of metadata().unwrap(). The checks run in source order: depth
short-circuit, prune short-circuit, cycle marker, dedup marker, then expansion
of the filtered requirement list with the current name pushed on the path. -/
def visit (g : DisplayDependencyGraph) (installed_dist : InstalledDist)
    (visited : List String) (path : List String) (extra : Option String) :
    Option (List String × List String) :=
  if _hdep : path.length > g.depth then
    some ([], visited)
  else if g.prune.contains installed_dist.name then
    some ([], visited)
  else
    let package_name := installed_dist.name
    let line := lineFor extra installed_dist
    if path.contains package_name then
      some ([line ++ " (#)"], visited)
    else if visited.contains package_name && !g.no_dedupe then
      some ([line ++ " (*)"], visited)
    else
      match installed_dist.metadata with
      | none => none
      | some m =>
        match visitChildren g
            (m.requires_dist.filter
              (fun r => (dist_by_package_name g.site_packages r.name).isSome &&
                (match r.marker with
                 | none => true
                 | some mk => markerEval mk m.provides_extras)))
            m.provides_extras [] (visited.insert package_name)
            (path ++ [package_name]) with
        | none => none
        | some res => some (line :: res.1, res.2)
termination_by (g.depth + 1 - path.length, 0)
decreasing_by
  apply Prod.Lex.left
  simp only [List.length_append, List.length_cons, List.length_nil]
  omega

/-- Loop over the filtered requirement list of a package (tree.rs lines
210-276): find an unused extra that would activate the requirement's marker,
mark it used, choose the connector pair depending on whether this is the last
entry, recurse into the target distribution, prefix its block, and continue
with the rest, threading the visited set and the used extras. -/
def visitChildren (g : DisplayDependencyGraph) (rps : List Requirement)
    (extras : List String) (used_extras : List String)
    (visited : List String) (path : List String) :
    Option (List String × List String) :=
  match rps with
  | [] => some ([], visited)
  | rp :: rest =>
    let extra_found := extras.find? (fun e =>
      (match rp.marker with
       | none => false
       | some mk => markerEval mk [e]) && !used_extras.contains e)
    let used' := match extra_found with
      | some e => used_extras.insert e
      | none => used_extras
    let ptop := if rest.isEmpty then "└── " else "├── "
    let prest := if rest.isEmpty then "    " else "│   "
    match dist_by_package_name g.site_packages rp.name with
    | none => none
    | some cd =>
      match visit g cd visited path extra_found with
      | none => none
      | some cres =>
        match visitChildren g rest extras used' cres.2 path with
        | none => none
        | some res2 => some (prefixLines ptop prest cres.1 ++ res2.1, res2.2)
termination_by (g.depth + 1 - path.length, rps.length + 1)
decreasing_by
  · apply Prod.Lex.right
    omega
  · apply Prod.Lex.right
    simp only [List.length_cons]
    omega

end

/-- Loop of render() (tree.rs lines 286-292): iterate the packages in their
stable order and start a traversal, with a fresh empty path, at every package
that no installed package requires, threading the visited set and
accumulating lines. -/
def renderRoots (g : DisplayDependencyGraph) (req : List String) :
    List InstalledDist → List String → List String → Option (List String)
  | [], _, lines => some lines
  | p :: rest, visited, lines =>
    if req.contains p.name then
      renderRoots g req rest visited lines
    else
      match visit g p visited [] none with
      | none => none
      | some res => renderRoots g req rest res.2 (lines ++ res.1)

/-- Model of DisplayDependencyGraph::render (tree.rs lines 283-294), including
the construction of required_packages in new(): the traversal starts exactly
at the packages without incoming edges of the unfiltered-by-marker graph. -/
def render (g : DisplayDependencyGraph) : Option (List String) :=
  match required_packages g.site_packages g.site_packages with
  | none => none
  | some req => renderRoots g req g.site_packages [] []

/-- Model of the rendering portion of the public entry point pip_tree (tree.rs
lines 23-52): the depth argument is a u8 (hence the reduction modulo 256)
widened with into(), and the tree is produced by DisplayDependencyGraph::new
followed by render. -/
def pip_tree (depth : Nat) (prune : List String) (no_dedupe : Bool)
    (site_packages : List InstalledDist) : Option (List String) :=
  render { site_packages := site_packages, depth := depth % 256,
           prune := prune, no_dedupe := no_dedupe }

/-! Executable twin of the traversal. The functions visit and visitChildren are
defined by well-founded recursion, so they do not reduce inside the kernel;
the fuel-indexed twins below are structurally recursive (hence reduce), and
are proved pointwise equal to visit and visitChildren whenever the fuel is at
least the termination measure. Concrete evaluations go through the twins. -/

/-- Loop of visitChildren with the recursive visit passed as a function
argument, structurally recursive on the requirement list. -/
def childrenExec
    (g : DisplayDependencyGraph)
    (vf : InstalledDist → List String → Option String → Option (List String × List String)) :
    List Requirement → List String → List String → List String →
      Option (List String × List String)
  | [], _, _, visited => some ([], visited)
  | rp :: rest, extras, used_extras, visited =>
    let extra_found := extras.find? (fun e =>
      (match rp.marker with
       | none => false
       | some mk => markerEval mk [e]) && !used_extras.contains e)
    let used' := match extra_found with
      | some e => used_extras.insert e
      | none => used_extras
    let ptop := if rest.isEmpty then "└── " else "├── "
    let prest := if rest.isEmpty then "    " else "│   "
    match dist_by_package_name g.site_packages rp.name with
    | none => none
    | some cd =>
      match vf cd visited extra_found with
      | none => none
      | some cres =>
        match childrenExec g vf rest extras used' cres.2 with
        | none => none
        | some res2 => some (prefixLines ptop prest cres.1 ++ res2.1, res2.2)

/-- Fuel-indexed twin of visit: when the fuel is zero the invariant guarantees
the depth short-circuit fires, so the twin returns the same empty block. -/
def visitExec (g : DisplayDependencyGraph) :
    Nat → InstalledDist → List String → List String → Option String →
      Option (List String × List String)
  | 0, _, visited, _, _ => some ([], visited)
  | fuel + 1, installed_dist, visited, path, extra =>
    if path.length > g.depth then
      some ([], visited)
    else if g.prune.contains installed_dist.name then
      some ([], visited)
    else
      let package_name := installed_dist.name
      let line := lineFor extra installed_dist
      if path.contains package_name then
        some ([line ++ " (#)"], visited)
      else if visited.contains package_name && !g.no_dedupe then
        some ([line ++ " (*)"], visited)
      else
        match installed_dist.metadata with
        | none => none
        | some m =>
          match childrenExec g
              (fun cd v ef => visitExec g fuel cd v (path ++ [package_name]) ef)
              (m.requires_dist.filter
                (fun r => (dist_by_package_name g.site_packages r.name).isSome &&
                  (match r.marker with
                   | none => true
                   | some mk => markerEval mk m.provides_extras)))
              m.provides_extras [] (visited.insert package_name) with
          | none => none
          | some res => some (line :: res.1, res.2)

/-- Twin of renderRoots using the fuel-indexed visit. -/
def renderRootsExec (g : DisplayDependencyGraph) (req : List String) :
    List InstalledDist → List String → List String → Option (List String)
  | [], _, lines => some lines
  | p :: rest, visited, lines =>
    if req.contains p.name then
      renderRootsExec g req rest visited lines
    else
      match visitExec g (g.depth + 1) p visited [] none with
      | none => none
      | some res => renderRootsExec g req rest res.2 (lines ++ res.1)

/-- Twin of render using the fuel-indexed visit. -/
def renderExec (g : DisplayDependencyGraph) : Option (List String) :=
  match required_packages g.site_packages g.site_packages with
  | none => none
  | some req => renderRootsExec g req g.site_packages [] []

theorem childrenExec_eq (g : DisplayDependencyGraph)
    (vf : InstalledDist → List String → Option String → Option (List String × List String))
    (path : List String)
    (hvf : ∀ cd v ef, vf cd v ef = visit g cd v path ef) :
    ∀ (rps : List Requirement) (extras used_extras visited : List String),
      childrenExec g vf rps extras used_extras visited =
        visitChildren g rps extras used_extras visited path := by
  intro rps
  induction rps with
  | nil =>
    intro extras used_extras visited
    rw [visitChildren]
    rfl
  | cons rp rest ih =>
    intro extras used_extras visited
    rw [visitChildren]
    simp only [childrenExec, hvf, ih]

theorem visitExec_eq (g : DisplayDependencyGraph) :
    ∀ (fuel : Nat) (installed_dist : InstalledDist)
      (visited path : List String) (extra : Option String),
      g.depth + 1 - path.length ≤ fuel →
      visitExec g fuel installed_dist visited path extra =
        visit g installed_dist visited path extra := by
  intro fuel
  induction fuel with
  | zero =>
    intro d visited path extra hfuel
    have hlen : path.length > g.depth := by omega
    rw [visit.eq_def]
    rw [dif_pos hlen]
    rfl
  | succ fuel ih =>
    intro d visited path extra hfuel
    rw [visit.eq_def]
    by_cases hlen : path.length > g.depth
    · rw [dif_pos hlen]
      simp only [visitExec, if_pos hlen]
    · rw [dif_neg hlen]
      simp only [visitExec, if_neg hlen]
      by_cases hprune : g.prune.contains d.name
      · simp only [hprune, if_true]
      · simp only [hprune, if_false, Bool.false_eq_true]
        by_cases hcyc : path.contains d.name
        · simp only [hcyc, if_true]
        · simp only [hcyc, if_false, Bool.false_eq_true]
          by_cases hded : (visited.contains d.name && !g.no_dedupe) = true
          · simp only [hded, if_true]
          · simp only [hded, if_false]
            have hrec : ∀ cd v ef,
                visitExec g fuel cd v (path ++ [d.name]) ef =
                  visit g cd v (path ++ [d.name]) ef := by
              intro cd v ef
              apply ih
              simp only [List.length_append, List.length_cons, List.length_nil]
              omega
            simp only [childrenExec_eq g _ (path ++ [d.name]) hrec]

theorem renderRootsExec_eq (g : DisplayDependencyGraph) (req : List String) :
    ∀ (pkgs : List InstalledDist) (visited lines : List String),
      renderRootsExec g req pkgs visited lines = renderRoots g req pkgs visited lines := by
  intro pkgs
  induction pkgs with
  | nil => intro visited lines; rfl
  | cons p rest ih =>
    intro visited lines
    simp only [renderRootsExec, renderRoots]
    by_cases hreq : req.contains p.name
    · simp only [hreq, if_true, ih]
    · simp only [hreq, if_false, Bool.false_eq_true]
      rw [visitExec_eq g (g.depth + 1) p visited [] none (by simp)]
      cases visit g p visited [] none with
      | none => rfl
      | some res => simp only [ih]

theorem renderExec_eq (g : DisplayDependencyGraph) : renderExec g = render g := by
  unfold renderExec render
  cases required_packages g.site_packages g.site_packages with
  | none => rfl
  | some req => simp only [renderRootsExec_eq]

/-! Characterizations of the name index (the dist_by_package_name HashMap). -/

theorem dist_foldl_acc (n : String) :
    ∀ (pkgs : List InstalledDist) (acc : Option InstalledDist),
      pkgs.foldl (fun acc p => if p.name = n then some p else acc) acc = acc ∨
      ∃ d, pkgs.foldl (fun acc p => if p.name = n then some p else acc) acc = some d ∧
        d ∈ pkgs ∧ d.name = n := by
  intro pkgs
  induction pkgs with
  | nil => intro acc; left; rfl
  | cons p rest ih =>
    intro acc
    simp only [List.foldl_cons]
    by_cases hp : p.name = n
    · rw [if_pos hp]
      rcases ih (some p) with h | ⟨d, h, hmem, hn⟩
      · right; exact ⟨p, h, List.mem_cons_self p rest, hp⟩
      · right; exact ⟨d, h, List.mem_cons_of_mem p hmem, hn⟩
    · rw [if_neg hp]
      rcases ih acc with h | ⟨d, h, hmem, hn⟩
      · left; exact h
      · right; exact ⟨d, h, List.mem_cons_of_mem p hmem, hn⟩

theorem dist_by_package_name_mem {pkgs : List InstalledDist} {n : String}
    {d : InstalledDist} (h : dist_by_package_name pkgs n = some d) :
    d ∈ pkgs ∧ d.name = n := by
  rcases dist_foldl_acc n pkgs none with h0 | ⟨d', h', hmem, hn⟩
  · unfold dist_by_package_name at h
    rw [h0] at h
    cases h
  · unfold dist_by_package_name at h
    rw [h'] at h
    obtain rfl : d' = d := by injection h
    exact ⟨hmem, hn⟩

theorem dist_foldl_isSome (n : String) :
    ∀ (pkgs : List InstalledDist) (acc : Option InstalledDist), acc.isSome →
      (pkgs.foldl (fun acc p => if p.name = n then some p else acc) acc).isSome := by
  intro pkgs
  induction pkgs with
  | nil => intro acc h; exact h
  | cons p rest ih =>
    intro acc h
    simp only [List.foldl_cons]
    apply ih
    by_cases hp : p.name = n
    · rw [if_pos hp]; rfl
    · rw [if_neg hp]; exact h

theorem dist_foldl_isSome_of_mem (n : String) :
    ∀ (pkgs : List InstalledDist) (acc : Option InstalledDist) (d : InstalledDist),
      d ∈ pkgs → d.name = n →
      (pkgs.foldl (fun acc p => if p.name = n then some p else acc) acc).isSome := by
  intro pkgs
  induction pkgs with
  | nil => intro acc d h _; cases h
  | cons p rest ih =>
    intro acc d h hn
    simp only [List.foldl_cons]
    rcases List.mem_cons.mp h with rfl | h'
    · apply dist_foldl_isSome
      rw [if_pos hn]; rfl
    · exact ih _ d h' hn

theorem dist_by_package_name_isSome_of_mem {pkgs : List InstalledDist}
    {d : InstalledDist} (h : d ∈ pkgs) : (dist_by_package_name pkgs d.name).isSome :=
  dist_foldl_isSome_of_mem d.name pkgs none d h rfl

theorem dist_by_package_name_isSome_iff {pkgs : List InstalledDist} {n : String} :
    (dist_by_package_name pkgs n).isSome ↔ ∃ d, d ∈ pkgs ∧ d.name = n := by
  constructor
  · intro h
    obtain ⟨d, hd⟩ := Option.isSome_iff_exists.mp h
    obtain ⟨hmem, hn⟩ := dist_by_package_name_mem hd
    exact ⟨d, hmem, hn⟩
  · rintro ⟨d, hmem, rfl⟩
    exact dist_by_package_name_isSome_of_mem hmem

theorem dist_foldl_no_match (n : String) :
    ∀ (l : List InstalledDist) (acc : Option InstalledDist), (∀ q ∈ l, q.name ≠ n) →
      l.foldl (fun acc p => if p.name = n then some p else acc) acc = acc := by
  intro l
  induction l with
  | nil => intro acc _; rfl
  | cons p rest ih =>
    intro acc h
    simp only [List.foldl_cons]
    rw [if_neg (h p (List.mem_cons_self p rest))]
    exact ih acc (fun q hq => h q (List.mem_cons_of_mem p hq))

theorem dist_by_package_name_self {pkgs : List InstalledDist}
    (hnd : (pkgs.map InstalledDist.name).Nodup) {d : InstalledDist} (h : d ∈ pkgs) :
    dist_by_package_name pkgs d.name = some d := by
  have hs := dist_by_package_name_isSome_of_mem h
  obtain ⟨d', hd'⟩ := Option.isSome_iff_exists.mp hs
  obtain ⟨hmem, hn⟩ := dist_by_package_name_mem hd'
  have : d' = d := List.inj_on_of_nodup_map hnd hmem h hn
  rw [hd', this]

/-! Characterizations of the required_packages set built by new(). -/

theorem required_packages_none_of_bad {all l : List InstalledDist} {p : InstalledDist}
    (hp : p ∈ l) (hm : p.metadata = none) : required_packages all l = none := by
  induction l with
  | nil => cases hp
  | cons q rest ih =>
    rcases List.mem_cons.mp hp with rfl | hp'
    · simp only [required_packages, hm]
    · simp only [required_packages, ih hp']
      cases q.metadata <;> rfl

theorem required_packages_isSome {all : List InstalledDist} :
    ∀ l : List InstalledDist, (∀ p ∈ l, p.metadata.isSome) →
      ∃ req, required_packages all l = some req := by
  intro l
  induction l with
  | nil => intro _; exact ⟨[], rfl⟩
  | cons q rest ih =>
    intro h
    obtain ⟨m, hm⟩ := Option.isSome_iff_exists.mp (h q (List.mem_cons_self q rest))
    obtain ⟨req, hreq⟩ := ih (fun p hp => h p (List.mem_cons_of_mem q hp))
    refine ⟨((m.requires_dist.filter
        (fun r => (dist_by_package_name all r.name).isSome)).map Requirement.name) ++ req, ?_⟩
    simp only [required_packages, hm, hreq]

theorem required_packages_mem {all : List InstalledDist} :
    ∀ (l : List InstalledDist) (req : List String),
      required_packages all l = some req →
      ∀ n : String, n ∈ req ↔
        ∃ p ∈ l, ∃ m, p.metadata = some m ∧ ∃ r ∈ m.requires_dist,
          r.name = n ∧ (dist_by_package_name all r.name).isSome := by
  intro l
  induction l with
  | nil =>
    intro req hreq n
    injection hreq with h
    subst h
    simp
  | cons q rest ih =>
    intro req hreq n
    cases hm : q.metadata with
    | none =>
      simp only [required_packages, hm] at hreq
      cases hreq
    | some m =>
      cases hrest : required_packages all rest with
      | none =>
        simp only [required_packages, hm, hrest] at hreq
        cases hreq
      | some acc =>
        simp only [required_packages, hm, hrest] at hreq
        injection hreq with h
        subst h
        rw [List.mem_append]
        constructor
        · rintro (hl | hr)
          · obtain ⟨r, hrf, hrn⟩ := List.mem_map.mp hl
            obtain ⟨hrd, hcond⟩ := List.mem_filter.mp hrf
            exact ⟨q, List.mem_cons_self q rest, m, hm, r, hrd, hrn,
              by simpa using hcond⟩
          · obtain ⟨p, hp, m', hm', r, hr, hrn, hs⟩ := (ih acc hrest n).mp hr
            exact ⟨p, List.mem_cons_of_mem q hp, m', hm', r, hr, hrn, hs⟩
        · rintro ⟨p, hp, m', hm', r, hr, hrn, hs⟩
          rcases List.mem_cons.mp hp with rfl | hp'
          · left
            rw [hm] at hm'
            injection hm' with hm'
            subst hm'
            exact List.mem_map.mpr ⟨r, List.mem_filter.mpr ⟨hr, by simpa using hs⟩, hrn⟩
          · right
            exact (ih acc hrest n).mpr ⟨p, hp', m', hm', r, hr, hrn, hs⟩

/-! Branch equations of visit, one per short-circuit of the source (tree.rs
lines 152-184), plus unfoldings of visitChildren. -/

theorem visit_eq_depth (g : DisplayDependencyGraph) (d : InstalledDist)
    (visited path : List String) (extra : Option String)
    (h : path.length > g.depth) :
    visit g d visited path extra = some ([], visited) := by
  rw [visit.eq_def, dif_pos h]

theorem visit_eq_prune (g : DisplayDependencyGraph) (d : InstalledDist)
    (visited path : List String) (extra : Option String)
    (h1 : ¬ path.length > g.depth) (h2 : g.prune.contains d.name) :
    visit g d visited path extra = some ([], visited) := by
  rw [visit.eq_def, dif_neg h1, if_pos h2]

theorem visit_eq_cycle (g : DisplayDependencyGraph) (d : InstalledDist)
    (visited path : List String) (extra : Option String)
    (h1 : ¬ path.length > g.depth) (h2 : ¬ g.prune.contains d.name)
    (h3 : path.contains d.name) :
    visit g d visited path extra = some ([lineFor extra d ++ " (#)"], visited) := by
  rw [visit.eq_def, dif_neg h1]
  simp only [h2, h3, if_true, if_false, Bool.false_eq_true]

theorem visit_eq_dedup (g : DisplayDependencyGraph) (d : InstalledDist)
    (visited path : List String) (extra : Option String)
    (h1 : ¬ path.length > g.depth) (h2 : ¬ g.prune.contains d.name)
    (h3 : ¬ path.contains d.name) (h4 : (visited.contains d.name && !g.no_dedupe) = true) :
    visit g d visited path extra = some ([lineFor extra d ++ " (*)"], visited) := by
  rw [visit.eq_def, dif_neg h1]
  simp only [h2, h3, h4, if_true, if_false, Bool.false_eq_true]

theorem visit_eq_meta_none (g : DisplayDependencyGraph) (d : InstalledDist)
    (visited path : List String) (extra : Option String)
    (h1 : ¬ path.length > g.depth) (h2 : ¬ g.prune.contains d.name)
    (h3 : ¬ path.contains d.name) (h4 : ¬ (visited.contains d.name && !g.no_dedupe) = true)
    (hm : d.metadata = none) :
    visit g d visited path extra = none := by
  rw [visit.eq_def, dif_neg h1]
  simp only [h2, h3, h4, hm, if_true, if_false, Bool.false_eq_true]

theorem visit_eq_expand (g : DisplayDependencyGraph) (d : InstalledDist)
    (visited path : List String) (extra : Option String) (m : Metadata)
    (h1 : ¬ path.length > g.depth) (h2 : ¬ g.prune.contains d.name)
    (h3 : ¬ path.contains d.name) (h4 : ¬ (visited.contains d.name && !g.no_dedupe) = true)
    (hm : d.metadata = some m) :
    visit g d visited path extra =
      (visitChildren g
          (m.requires_dist.filter
            (fun r => (dist_by_package_name g.site_packages r.name).isSome &&
              (match r.marker with
               | none => true
               | some mk => markerEval mk m.provides_extras)))
          m.provides_extras [] (visited.insert d.name) (path ++ [d.name])).map
        (fun res => (lineFor extra d :: res.1, res.2)) := by
  rw [visit.eq_def, dif_neg h1]
  simp only [h2, h3, h4, hm, if_true, if_false, Bool.false_eq_true]
  cases visitChildren g
      (m.requires_dist.filter
        (fun r => (dist_by_package_name g.site_packages r.name).isSome &&
          (match r.marker with
           | none => true
           | some mk => markerEval mk m.provides_extras)))
      m.provides_extras [] (visited.insert d.name) (path ++ [d.name]) with
  | none => rfl
  | some res => rfl

theorem visitChildren_nil (g : DisplayDependencyGraph)
    (extras used_extras visited path : List String) :
    visitChildren g [] extras used_extras visited path = some ([], visited) := by
  rw [visitChildren]

/-- Extra selected for one requirement edge (tree.rs lines 211-219): the
first provided extra whose activation alone satisfies the requirement's
marker and that has not yet been consumed. -/
def childExtra (rp : Requirement) (extras used_extras : List String) : Option String :=
  extras.find? (fun e =>
    (match rp.marker with
     | none => false
     | some mk => markerEval mk [e]) && !used_extras.contains e)

/-- Used-extras set after processing one requirement edge (tree.rs lines
220-222). -/
def childUsed (rp : Requirement) (extras used_extras : List String) : List String :=
  match childExtra rp extras used_extras with
  | some e => used_extras.insert e
  | none => used_extras

theorem visitChildren_cons_lookup_none (g : DisplayDependencyGraph) (rp : Requirement)
    (rest : List Requirement) (extras used_extras visited path : List String)
    (hlook : dist_by_package_name g.site_packages rp.name = none) :
    visitChildren g (rp :: rest) extras used_extras visited path = none := by
  rw [visitChildren.eq_def]
  simp only [hlook]

theorem visitChildren_cons_visit_none (g : DisplayDependencyGraph) (rp : Requirement)
    (rest : List Requirement) (extras used_extras visited path : List String)
    (cd : InstalledDist)
    (hlook : dist_by_package_name g.site_packages rp.name = some cd)
    (hvisit : visit g cd visited path (childExtra rp extras used_extras) = none) :
    visitChildren g (rp :: rest) extras used_extras visited path = none := by
  rw [visitChildren.eq_def]
  simp only [childExtra] at hvisit
  simp only [hlook, hvisit]

theorem visitChildren_cons_rest_none (g : DisplayDependencyGraph) (rp : Requirement)
    (rest : List Requirement) (extras used_extras visited path : List String)
    (cd : InstalledDist) (cres : List String × List String)
    (hlook : dist_by_package_name g.site_packages rp.name = some cd)
    (hvisit : visit g cd visited path (childExtra rp extras used_extras) = some cres)
    (hrest : visitChildren g rest extras (childUsed rp extras used_extras) cres.2 path =
      none) :
    visitChildren g (rp :: rest) extras used_extras visited path = none := by
  rw [visitChildren.eq_def]
  simp only [childExtra] at hvisit
  simp only [childUsed, childExtra] at hrest
  simp only [hlook, hvisit, hrest]

theorem visitChildren_cons_some (g : DisplayDependencyGraph) (rp : Requirement)
    (rest : List Requirement) (extras used_extras visited path : List String)
    (cd : InstalledDist) (cres res2 : List String × List String)
    (hlook : dist_by_package_name g.site_packages rp.name = some cd)
    (hvisit : visit g cd visited path (childExtra rp extras used_extras) = some cres)
    (hrest : visitChildren g rest extras (childUsed rp extras used_extras) cres.2 path =
      some res2) :
    visitChildren g (rp :: rest) extras used_extras visited path =
      some (prefixLines (if rest.isEmpty then "└── " else "├── ")
        (if rest.isEmpty then "    " else "│   ") cres.1 ++ res2.1, res2.2) := by
  rw [visitChildren.eq_def]
  simp only [childExtra] at hvisit
  simp only [childUsed, childExtra] at hrest
  simp only [hlook, hvisit, hrest]

/-! Totality of the traversal when every package's metadata is readable. -/

theorem visit_isSome (g : DisplayDependencyGraph)
    (HM : ∀ p ∈ g.site_packages, p.metadata.isSome)
    (d : InstalledDist) (visited path : List String) (extra : Option String) :
    d.metadata.isSome → (visit g d visited path extra).isSome := by
  refine visit.induct g
    (fun d visited path extra =>
      d.metadata.isSome → (visit g d visited path extra).isSome)
    (fun rps extras used visited path =>
      (∀ r ∈ rps, (dist_by_package_name g.site_packages r.name).isSome) →
        (visitChildren g rps extras used visited path).isSome)
    ?_ ?_ ?_ ?_ ?_ ?_ ?_ ?_ ?_ ?_ ?_ ?_ d visited path extra
  · intro d visited path extra h _
    rw [visit_eq_depth g d visited path extra h]; rfl
  · intro d visited path extra h1 h2 _
    rw [visit_eq_prune g d visited path extra h1 h2]; rfl
  · intro d visited path extra h1 h2 pn h3 _
    rw [visit_eq_cycle g d visited path extra h1 h2 h3]; rfl
  · intro d visited path extra h1 h2 pn h3 h4 _
    rw [visit_eq_dedup g d visited path extra h1 h2 h3 h4]; rfl
  · intro d visited path extra h1 h2 pn h3 h4 hm hsome
    rw [hm] at hsome; cases hsome
  · intro d visited path extra h1 h2 pn h3 h4 m hm hnone ih _
    have hfilter : ∀ r ∈ m.requires_dist.filter
        (fun r => (dist_by_package_name g.site_packages r.name).isSome &&
          (match r.marker with
           | none => true
           | some mk => markerEval mk m.provides_extras)),
        (dist_by_package_name g.site_packages r.name).isSome := by
      intro r hr
      exact ((Bool.and_eq_true _ _).mp (List.mem_filter.mp hr).2).1
    have hsome := ih hfilter
    rw [hnone] at hsome
    cases hsome
  · intro d visited path extra h1 h2 pn h3 h4 m hm res hres ih _
    rw [visit_eq_expand g d visited path extra m h1 h2 h3 h4 hm]
    have hres' : visitChildren g
        (m.requires_dist.filter
          (fun r => (dist_by_package_name g.site_packages r.name).isSome &&
            (match r.marker with
             | none => true
             | some mk => markerEval mk m.provides_extras)))
        m.provides_extras [] (visited.insert d.name) (path ++ [d.name]) = some res := hres
    rw [hres']; rfl
  · intro extras used visited path _
    rw [visitChildren_nil]; rfl
  · intro extras used visited path rp rest hlook hall
    have hsome := hall rp (List.mem_cons_self rp rest)
    rw [hlook] at hsome
    cases hsome
  · intro extras used visited path rp rest ef cd hlook hnone ih hall
    obtain ⟨hmem, _⟩ := dist_by_package_name_mem hlook
    have hsome := ih (HM cd hmem)
    rw [hnone] at hsome
    cases hsome
  · intro extras used visited path rp rest ef used' cd hlook res hres hnone ih1 ih2 hall
    have hsome := ih2 (fun r hr => hall r (List.mem_cons_of_mem rp hr))
    rw [hnone] at hsome
    cases hsome
  · intro extras used visited path rp rest ef used' cd hlook res hres res1 hres1 ih1 ih2 hall
    rw [visitChildren_cons_some g rp rest extras used visited path cd res res1 hlook hres hres1]
    rfl

theorem renderRoots_isSome (g : DisplayDependencyGraph)
    (HM : ∀ p ∈ g.site_packages, p.metadata.isSome) (req : List String) :
    ∀ (pkgs : List InstalledDist), (∀ p ∈ pkgs, p ∈ g.site_packages) →
      ∀ (visited lines : List String), (renderRoots g req pkgs visited lines).isSome := by
  intro pkgs
  induction pkgs with
  | nil => intro _ visited lines; rfl
  | cons p rest ih =>
    intro hsub visited lines
    by_cases hreq : req.contains p.name
    · simp only [renderRoots, hreq, if_true]
      exact ih (fun q hq => hsub q (List.mem_cons_of_mem p hq)) visited lines
    · simp only [renderRoots, hreq, if_false, Bool.false_eq_true]
      have hv := visit_isSome g HM p visited [] none
        (HM p (hsub p (List.mem_cons_self p rest)))
      obtain ⟨res, hres⟩ := Option.isSome_iff_exists.mp hv
      simp only [hres]
      exact ih (fun q hq => hsub q (List.mem_cons_of_mem p hq)) res.2 (lines ++ res.1)

theorem render_isSome (g : DisplayDependencyGraph)
    (HM : ∀ p ∈ g.site_packages, p.metadata.isSome) : (render g).isSome := by
  unfold render
  obtain ⟨req, hreq⟩ := required_packages_isSome g.site_packages HM
  rw [hreq]
  exact renderRoots_isSome g HM req g.site_packages (fun p hp => hp) [] []

/-! Nesting level of a rendered line, measured by counting the leading
connector blocks. Every connector emitted by visit is one of the four-column
blocks of tree.rs lines 244-248, so the nesting level of a line is the number
of such blocks before the package text, provided package names cannot be
mistaken for connector text (the goodName condition below, true of normalized
package names, which are nonempty lowercase alphanumerics with separators). -/

def countBlocksL : List Char → Nat
  | '├' :: '─' :: '─' :: ' ' :: rest => countBlocksL rest + 1
  | '│' :: ' ' :: ' ' :: ' ' :: rest => countBlocksL rest + 1
  | '└' :: '─' :: '─' :: ' ' :: rest => countBlocksL rest + 1
  | ' ' :: ' ' :: ' ' :: ' ' :: rest => countBlocksL rest + 1
  | _ => 0

def countBlocks (s : String) : Nat := countBlocksL s.data

/-- Characters that cannot occur in a normalized package name: the tree
connector characters, whitespace, and the bracket and marker characters used
by the renderer's annotations. -/
def specials : List Char := ['├', '│', '└', '─', ' ', '[', ']', '(', ')', '*', '#']

/-- Wellformedness of a displayed package name: nonempty and free of
connector and annotation characters. -/
abbrev goodName (n : String) : Prop := n.data ≠ [] ∧ ∀ c ∈ n.data, c ∉ specials

theorem not_special_blocks {c : Char} (h : c ∉ specials) :
    c ≠ '├' ∧ c ≠ '│' ∧ c ≠ '└' ∧ c ≠ ' ' := by
  refine ⟨?_, ?_, ?_, ?_⟩ <;> (rintro rfl; exact h (by decide))

theorem countBlocksL_zero (c : Char) (l : List Char)
    (h1 : c ≠ '├') (h2 : c ≠ '│') (h3 : c ≠ '└') (h4 : c ≠ ' ') :
    countBlocksL (c :: l) = 0 := by
  rw [countBlocksL.eq_def]
  split
  · rename_i heq; injection heq with hc _; exact absurd hc h1
  · rename_i heq; injection heq with hc _; exact absurd hc h2
  · rename_i heq; injection heq with hc _; exact absurd hc h3
  · rename_i heq; injection heq with hc _; exact absurd hc h4
  · rfl

theorem countBlocks_block1 (s : String) : countBlocks ("└── " ++ s) = countBlocks s + 1 := by
  unfold countBlocks
  rw [String.data_append]
  rfl

theorem countBlocks_block2 (s : String) : countBlocks ("├── " ++ s) = countBlocks s + 1 := by
  unfold countBlocks
  rw [String.data_append]
  rfl

theorem countBlocks_block3 (s : String) : countBlocks ("│   " ++ s) = countBlocks s + 1 := by
  unfold countBlocks
  rw [String.data_append]
  rfl

theorem countBlocks_block4 (s : String) : countBlocks ("    " ++ s) = countBlocks s + 1 := by
  unfold countBlocks
  rw [String.data_append]
  rfl

theorem countBlocks_eq_zero (s : String)
    (h : ∀ c cs, s.data = c :: cs → c ≠ '├' ∧ c ≠ '│' ∧ c ≠ '└' ∧ c ≠ ' ') :
    countBlocks s = 0 := by
  unfold countBlocks
  cases hd : s.data with
  | nil => rfl
  | cons c cs =>
    obtain ⟨h1, h2, h3, h4⟩ := h c cs hd
    exact countBlocksL_zero c cs h1 h2 h3 h4

theorem data_head_of_append (a b : String) (c : Char) (cs : List Char)
    (h : a.data = c :: cs) : ∃ cs', (a ++ b).data = c :: cs' := by
  refine ⟨cs ++ b.data, ?_⟩
  rw [String.data_append, h]
  rfl

theorem countBlocks_lineFor (d : InstalledDist) (extra : Option String) (suffix : String)
    (h : goodName d.name) : countBlocks (lineFor extra d ++ suffix) = 0 := by
  obtain ⟨hne, hall⟩ := h
  cases extra with
  | some e =>
    have e1 : ("[" ++ e).data = '[' :: e.data := by
      rw [String.data_append]
      rfl
    obtain ⟨cs2, e2⟩ := data_head_of_append _ "] " _ _ e1
    obtain ⟨cs3, e3⟩ := data_head_of_append _ d.name _ _ e2
    obtain ⟨cs4, e4⟩ := data_head_of_append _ " v" _ _ e3
    obtain ⟨cs5, e5⟩ := data_head_of_append _ d.version _ _ e4
    obtain ⟨cs6, e6⟩ := data_head_of_append _ suffix _ _ e5
    apply countBlocks_eq_zero
    intro c cs hd
    have hd' : (lineFor (some e) d ++ suffix).data = '[' :: cs6 := e6
    rw [hd'] at hd
    injection hd with hc _
    subst hc
    exact ⟨by decide, by decide, by decide, by decide⟩
  | none =>
    cases hdn : d.name.data with
    | nil => exact absurd hdn hne
    | cons c0 cs0 =>
      have e1 : ("" ++ d.name).data = c0 :: cs0 := by
        rw [String.data_append, hdn]
        rfl
      obtain ⟨cs2, e2⟩ := data_head_of_append _ " v" _ _ e1
      obtain ⟨cs3, e3⟩ := data_head_of_append _ d.version _ _ e2
      obtain ⟨cs4, e4⟩ := data_head_of_append _ suffix _ _ e3
      apply countBlocks_eq_zero
      intro c cs hd
      have hd' : (lineFor none d ++ suffix).data = c0 :: cs4 := e4
      rw [hd'] at hd
      injection hd with hc _
      exact hc ▸ not_special_blocks (hall c0 (by rw [hdn]; exact List.mem_cons_self c0 cs0))

theorem countBlocks_lineFor_plain (d : InstalledDist) (extra : Option String)
    (h : goodName d.name) : countBlocks (lineFor extra d) = 0 := by
  have := countBlocks_lineFor d extra "" h
  rwa [String.append_empty] at this

theorem prefixLines_mem {p q : String} {ls : List String} {l : String}
    (h : l ∈ prefixLines p q ls) : ∃ l0 ∈ ls, l = p ++ l0 ∨ l = q ++ l0 := by
  cases ls with
  | nil => cases h
  | cons a t =>
    simp only [prefixLines] at h
    rcases List.mem_cons.mp h with rfl | h'
    · exact ⟨a, List.mem_cons_self a t, Or.inl rfl⟩
    · obtain ⟨x, hx, rfl⟩ := List.mem_map.mp h'
      exact ⟨x, List.mem_cons_of_mem a hx, Or.inr rfl⟩

/-- Nesting bound of every line produced by one visit call: a line rendered
while the ancestor path has a given length carries at most depth minus that
length connector blocks. -/
theorem visit_count_bound (g : DisplayDependencyGraph)
    (HG : ∀ p ∈ g.site_packages, goodName p.name) :
    ∀ (d : InstalledDist) (visited path : List String) (extra : Option String),
      goodName d.name →
      ∀ res, visit g d visited path extra = some res →
        ∀ l ∈ res.1, countBlocks l + path.length ≤ g.depth := by
  intro d visited path extra
  refine visit.induct g
    (fun d visited path extra => goodName d.name →
      ∀ res, visit g d visited path extra = some res →
        ∀ l ∈ res.1, countBlocks l + path.length ≤ g.depth)
    (fun rps extras used visited path =>
      ∀ res, visitChildren g rps extras used visited path = some res →
        ∀ l ∈ res.1, countBlocks l + path.length ≤ g.depth + 1)
    ?_ ?_ ?_ ?_ ?_ ?_ ?_ ?_ ?_ ?_ ?_ ?_ d visited path extra
  · intro d visited path extra h hg res hres l hl
    rw [visit_eq_depth g d visited path extra h] at hres
    injection hres with hres
    rw [← hres] at hl
    cases hl
  · intro d visited path extra h1 h2 hg res hres l hl
    rw [visit_eq_prune g d visited path extra h1 h2] at hres
    injection hres with hres
    rw [← hres] at hl
    cases hl
  · intro d visited path extra h1 h2 pn h3 hg res hres l hl
    rw [visit_eq_cycle g d visited path extra h1 h2 h3] at hres
    injection hres with hres
    rw [← hres] at hl
    rw [List.mem_singleton.mp hl]
    rw [countBlocks_lineFor d extra " (#)" hg]
    omega
  · intro d visited path extra h1 h2 pn h3 h4 hg res hres l hl
    rw [visit_eq_dedup g d visited path extra h1 h2 h3 h4] at hres
    injection hres with hres
    rw [← hres] at hl
    rw [List.mem_singleton.mp hl]
    rw [countBlocks_lineFor d extra " (*)" hg]
    omega
  · intro d visited path extra h1 h2 pn h3 h4 hm hg res hres l hl
    rw [visit_eq_meta_none g d visited path extra h1 h2 h3 h4 hm] at hres
    cases hres
  · intro d visited path extra h1 h2 pn h3 h4 m hm hnone ih hg res hres l hl
    rw [visit_eq_expand g d visited path extra m h1 h2 h3 h4 hm] at hres
    have hnone' : visitChildren g
        (m.requires_dist.filter
          (fun r => (dist_by_package_name g.site_packages r.name).isSome &&
            (match r.marker with
             | none => true
             | some mk => markerEval mk m.provides_extras)))
        m.provides_extras [] (visited.insert d.name) (path ++ [d.name]) = none := hnone
    rw [hnone'] at hres
    cases hres
  · intro d visited path extra h1 h2 pn h3 h4 m hm res0 hres0 ih hg res hres l hl
    rw [visit_eq_expand g d visited path extra m h1 h2 h3 h4 hm] at hres
    have hres0' : visitChildren g
        (m.requires_dist.filter
          (fun r => (dist_by_package_name g.site_packages r.name).isSome &&
            (match r.marker with
             | none => true
             | some mk => markerEval mk m.provides_extras)))
        m.provides_extras [] (visited.insert d.name) (path ++ [d.name]) = some res0 := hres0
    rw [hres0'] at hres
    injection hres with hres
    rw [← hres] at hl
    rcases List.mem_cons.mp hl with rfl | hl'
    · rw [countBlocks_lineFor_plain d extra hg]
      omega
    · have hb := ih res0 hres0 l hl'
      simp only [List.length_append, List.length_cons, List.length_nil] at hb
      omega
  · intro extras used visited path res hres l hl
    rw [visitChildren_nil] at hres
    injection hres with hres
    rw [← hres] at hl
    cases hl
  · intro extras used visited path rp rest hlook res hres l hl
    rw [visitChildren_cons_lookup_none g rp rest extras used visited path hlook] at hres
    cases hres
  · intro extras used visited path rp rest ef cd hlook hnone ih res hres l hl
    rw [visitChildren_cons_visit_none g rp rest extras used visited path cd hlook hnone]
      at hres
    cases hres
  · intro extras used visited path rp rest ef used' cd hlook cres hcres hnone ih1 ih2
      res hres l hl
    rw [visitChildren_cons_rest_none g rp rest extras used visited path cd cres hlook
      hcres hnone] at hres
    cases hres
  · intro extras used visited path rp rest ef used' cd hlook cres hcres res2 hres2
      ih1 ih2 res hres l hl
    rw [visitChildren_cons_some g rp rest extras used visited path cd cres res2 hlook
      hcres hres2] at hres
    injection hres with hres
    rw [← hres] at hl
    have hgcd : goodName cd.name := HG cd (dist_by_package_name_mem hlook).1
    rcases List.mem_append.mp hl with hl' | hl'
    · obtain ⟨l0, hl0, hcase⟩ := prefixLines_mem hl'
      have hb := ih1 hgcd cres hcres l0 hl0
      by_cases hre : rest.isEmpty
      · simp only [hre, if_true] at hcase
        rcases hcase with rfl | rfl
        · rw [countBlocks_block1]
          omega
        · rw [countBlocks_block4]
          omega
      · simp only [hre, if_false, Bool.false_eq_true] at hcase
        rcases hcase with rfl | rfl
        · rw [countBlocks_block2]
          omega
        · rw [countBlocks_block3]
          omega
    · exact ih2 res2 hres2 l hl'

/-- Nesting bound over a whole renderRoots loop. -/
theorem renderRoots_count (g : DisplayDependencyGraph)
    (HG : ∀ p ∈ g.site_packages, goodName p.name) (req : List String) :
    ∀ (pkgs : List InstalledDist), (∀ p ∈ pkgs, p ∈ g.site_packages) →
      ∀ (visited lines0 out : List String),
        renderRoots g req pkgs visited lines0 = some out →
        ∀ l ∈ out, l ∈ lines0 ∨ countBlocks l ≤ g.depth := by
  intro pkgs
  induction pkgs with
  | nil =>
    intro _ visited lines0 out hout l hl
    injection hout with hout
    rw [← hout] at hl
    exact Or.inl hl
  | cons p rest ih =>
    intro hsub visited lines0 out hout l hl
    by_cases hreq : req.contains p.name
    · simp only [renderRoots, hreq, if_true] at hout
      exact ih (fun q hq => hsub q (List.mem_cons_of_mem p hq)) visited lines0 out hout l hl
    · simp only [renderRoots, hreq, if_false, Bool.false_eq_true] at hout
      cases hv : visit g p visited [] none with
      | none =>
        rw [hv] at hout
        cases hout
      | some res =>
        rw [hv] at hout
        rcases ih (fun q hq => hsub q (List.mem_cons_of_mem p hq)) res.2 (lines0 ++ res.1)
          out hout l hl with hmem | hcount
        · rcases List.mem_append.mp hmem with hm0 | hm1
          · exact Or.inl hm0
          · right
            have := visit_count_bound g HG p visited [] none
              (HG p (hsub p (List.mem_cons_self p rest))) res hv l hm1
            simpa using this
        · exact Or.inr hcount

/-- Nesting bound over the rendered output: no line carries more connector
blocks than the configured depth. -/
theorem render_count_bound (g : DisplayDependencyGraph)
    (HG : ∀ p ∈ g.site_packages, goodName p.name) (lines : List String)
    (h : render g = some lines) : ∀ l ∈ lines, countBlocks l ≤ g.depth := by
  unfold render at h
  cases hreq : required_packages g.site_packages g.site_packages with
  | none =>
    rw [hreq] at h
    cases h
  | some req =>
    rw [hreq] at h
    intro l hl
    rcases renderRoots_count g HG req g.site_packages (fun p hp => hp) [] [] lines h l hl
      with hmem | hcount
    · cases hmem
    · exact hcount

/-- Children emit nothing once the ancestor path exceeds the depth limit. -/
theorem visitChildren_high_some (g : DisplayDependencyGraph) :
    ∀ (rps : List Requirement) (extras used visited path : List String)
      (res : List String × List String),
      path.length > g.depth →
      visitChildren g rps extras used visited path = some res →
      res = ([], visited) := by
  intro rps
  induction rps with
  | nil =>
    intro extras used visited path res _ h
    rw [visitChildren_nil] at h
    injection h with h
    exact h.symm
  | cons rp rest ih =>
    intro extras used visited path res hlen h
    cases hlook : dist_by_package_name g.site_packages rp.name with
    | none =>
      rw [visitChildren_cons_lookup_none g rp rest extras used visited path hlook] at h
      cases h
    | some cd =>
      have hv : visit g cd visited path (childExtra rp extras used) = some ([], visited) :=
        visit_eq_depth g cd visited path (childExtra rp extras used) hlen
      cases hrest : visitChildren g rest extras (childUsed rp extras used) visited path with
      | none =>
        rw [visitChildren_cons_rest_none g rp rest extras used visited path cd
          ([], visited) hlook hv hrest] at h
        cases h
      | some res2 =>
        have h2 := ih extras (childUsed rp extras used) visited path res2 hlen hrest
        rw [visitChildren_cons_some g rp rest extras used visited path cd ([], visited)
          res2 hlook hv hrest] at h
        injection h with h
        rw [h2] at h
        exact h.symm

/-- A visit entered with the ancestor path already at the depth limit emits
at most its own line: all child calls are suppressed. -/
theorem visit_at_depth_short (g : DisplayDependencyGraph) (d : InstalledDist)
    (visited path : List String) (extra : Option String)
    (res : List String × List String)
    (h : visit g d visited path extra = some res) (hd : path.length = g.depth) :
    res.1.length ≤ 1 := by
  by_cases h1 : path.length > g.depth
  · rw [visit_eq_depth g d visited path extra h1] at h
    injection h with h
    rw [← h]
    simp
  · by_cases h2 : g.prune.contains d.name
    · rw [visit_eq_prune g d visited path extra h1 h2] at h
      injection h with h
      rw [← h]
      simp
    · by_cases h3 : path.contains d.name
      · rw [visit_eq_cycle g d visited path extra h1 h2 h3] at h
        injection h with h
        rw [← h]
        simp
      · by_cases h4 : (visited.contains d.name && !g.no_dedupe) = true
        · rw [visit_eq_dedup g d visited path extra h1 h2 h3 h4] at h
          injection h with h
          rw [← h]
          simp
        · cases hm : d.metadata with
          | none =>
            rw [visit_eq_meta_none g d visited path extra h1 h2 h3 h4 hm] at h
            cases h
          | some m =>
            rw [visit_eq_expand g d visited path extra m h1 h2 h3 h4 hm] at h
            rcases Option.map_eq_some'.mp h with ⟨res0, hc, hf⟩
            have h0 := visitChildren_high_some g _ _ _ _ _ res0
              (by simp only [List.length_append, List.length_cons, List.length_nil]
                  omega) hc
            rw [← hf, h0]
            simp

/-! Claim C5: duplicate package names in the installed collection. -/

def c5_first : InstalledDist := ⟨"dup", "1", some ⟨[], []⟩⟩

def c5_second : InstalledDist := ⟨"dup", "2", some ⟨[], []⟩⟩

/-- C5 counterexample: the claim says that when two installed packages share a
normalized name, the builder keeps the first-seen record and lookups return
the first-seen entry. On the code, new() fills the HashMap with insert while
iterating, and insert overwrites, so with two packages both named dup
(versions 1 and 2, in that order) the lookup returns the one with version 2,
the second-seen entry, not version 1. The builder also records no diagnostic
itself. -/
theorem c5_counterexample :
    c5_first.name = "dup" ∧ c5_second.name = "dup" ∧ c5_first.version = "1" ∧
      c5_second.version = "2" ∧
      (dist_by_package_name [c5_first, c5_second] "dup").map InstalledDist.version =
        some "2" := by
  decide

/-- C5 amended: when several installed packages normalize to the same name,
the name-to-package index keeps the LAST-seen package record in iteration
order (HashMap::insert overwrites), and lookups for that name afterwards
return that last-seen entry; the builder itself records no diagnostic
(duplicate-environment diagnostics come from SitePackages::diagnostics,
outside this code, under the strict flag). -/
theorem c5_amended_last_seen (pkgs₁ pkgs₂ : List InstalledDist) (p : InstalledDist)
    (h : ∀ q ∈ pkgs₂, q.name ≠ p.name) :
    dist_by_package_name (pkgs₁ ++ p :: pkgs₂) p.name = some p := by
  unfold dist_by_package_name
  rw [List.foldl_append, List.foldl_cons, if_pos rfl]
  exact dist_foldl_no_match p.name pkgs₂ (some p) h

/-- C5 witness: the amended last-seen rule evaluated on the concrete
two-package collection of the counterexample. -/
theorem c5_witness :
    dist_by_package_name [c5_first, c5_second] "dup" = some c5_second :=
  c5_amended_last_seen [c5_first] [] c5_second (fun q hq => absurd hq (List.not_mem_nil q))

/-! Claim C2: a package whose metadata cannot be read. -/

def c2_good : InstalledDist := ⟨"good", "1", some ⟨[], []⟩⟩

def c2_bad : InstalledDist := ⟨"bad", "1", none⟩

def c2_graph : DisplayDependencyGraph := ⟨[c2_good, c2_bad], 255, [], false⟩

/-- C2 counterexample: the claim says a package with unreadable metadata only
loses its own subtree, a diagnostic is emitted, sibling subtrees are still
rendered and render returns a result. On the code, new() and visit() call
metadata().unwrap(), which panics; with packages good (readable) and bad
(unreadable metadata) the whole render aborts (modelled as none) and the
sibling good is not rendered either. -/
theorem c2_counterexample : render c2_graph = none := by
  rw [← renderExec_eq]
  rfl

/-- C2 amended: if any installed package's requirement metadata cannot be
read, the render panics (metadata().unwrap()) and produces no result at all;
there is no per-package recovery, no diagnostic, and sibling subtrees are not
rendered. -/
theorem c2_amended (g : DisplayDependencyGraph) (p : InstalledDist)
    (hp : p ∈ g.site_packages) (hm : p.metadata = none) : render g = none := by
  unfold render
  rw [required_packages_none_of_bad hp hm]

def c2_wbad : InstalledDist := ⟨"w", "1", none⟩

def c2w_graph : DisplayDependencyGraph := ⟨[c2_wbad], 5, [], false⟩

/-- C2 witness: the amended panic rule applied to a concrete one-package
collection whose only package has unreadable metadata. -/
theorem c2_witness : render c2w_graph = none :=
  c2_amended c2w_graph c2_wbad (List.mem_singleton.mpr rfl) rfl

/-! Claim C3: cycle detection. -/

def c3w_a : InstalledDist := ⟨"wa", "1", some ⟨[Requirement.mk "wa" none], []⟩⟩

def c3w_graph : DisplayDependencyGraph := ⟨[c3w_a], 3, [], false⟩

/-- C3: when the visited node's name is already on the active ancestor path
(and the depth and prune short-circuits, which the source checks first, do
not fire), visit emits exactly one line for the node suffixed with the cycle
marker, does not recurse into its dependencies (the visited set is returned
unchanged and no child line is produced), and — second conjunct — the render
call always returns a result on any collection whose metadata is readable,
cyclic dependencies included: visiting never recurses infinitely, since visit
is a total function of this embedding. -/
theorem c3_cycle_marker :
    (∀ (g : DisplayDependencyGraph) (d : InstalledDist) (visited path : List String)
        (extra : Option String),
        path.length ≤ g.depth → d.name ∉ g.prune → d.name ∈ path →
        visit g d visited path extra = some ([lineFor extra d ++ " (#)"], visited)) ∧
    (∀ g : DisplayDependencyGraph,
        (∀ p ∈ g.site_packages, p.metadata.isSome) → (render g).isSome) := by
  constructor
  · intro g d visited path extra h1 h2 h3
    apply visit_eq_cycle
    · omega
    · intro hc; exact h2 (List.mem_of_elem_eq_true hc)
    · exact List.elem_eq_true_of_mem h3
  · exact render_isSome

/-- C3 witness: the cycle rule evaluated at a concrete self-requiring package
sitting on the ancestor path, plus render totality on its cyclic collection. -/
theorem c3_witness :
    visit c3w_graph c3w_a ["seen"] ["wa"] none = some (["wa v1 (#)"], ["seen"]) ∧
      (render c3w_graph).isSome :=
  ⟨c3_cycle_marker.1 c3w_graph c3w_a ["seen"] ["wa"] none (by decide) (by decide) (by decide),
   c3_cycle_marker.2 c3w_graph (by decide)⟩

/-! Claim C9: deduplication. -/

def c9a : InstalledDist := ⟨"a", "1", some ⟨[Requirement.mk "b" none], []⟩⟩

def c9b : InstalledDist := ⟨"b", "1", some ⟨[], []⟩⟩

def c9c : InstalledDist := ⟨"c", "1", some ⟨[Requirement.mk "b" none], []⟩⟩

def c9_graph : DisplayDependencyGraph := ⟨[c9a, c9b, c9c], 255, [], false⟩

/-- C9: with deduplication enabled (no_dedupe = false), visiting a node whose
name is already in the render-global visited set and not on the current
ancestor path (with the depth and prune short-circuits not firing) emits
exactly one line suffixed with the dedup marker and does not recurse; and on
the spec's scenario, packages a requires b and c requires b in that stable
input order, b is fully expanded under a (visited first) and marked with the
dedup star under c — the visited set having persisted across the two roots of
the single render. -/
theorem c9_dedup_marker :
    (∀ (g : DisplayDependencyGraph) (d : InstalledDist) (visited path : List String)
        (extra : Option String),
        path.length ≤ g.depth → d.name ∉ g.prune → d.name ∉ path →
        d.name ∈ visited → g.no_dedupe = false →
        visit g d visited path extra = some ([lineFor extra d ++ " (*)"], visited)) ∧
    render c9_graph = some ["a v1", "└── b v1", "c v1", "└── b v1 (*)"] := by
  constructor
  · intro g d visited path extra h1 h2 h3 h4 h5
    apply visit_eq_dedup
    · omega
    · intro hc; exact h2 (List.mem_of_elem_eq_true hc)
    · intro hc; exact h3 (List.mem_of_elem_eq_true hc)
    · simp only [h5, Bool.not_false, Bool.and_true]
      exact List.elem_eq_true_of_mem h4
  · rw [← renderExec_eq]; decide

def c9w_b : InstalledDist := ⟨"wb", "2", some ⟨[], []⟩⟩

def c9w_graph : DisplayDependencyGraph := ⟨[c9w_b], 4, [], false⟩

/-- C9 witness: the dedup rule evaluated at a concrete already-visited node. -/
theorem c9_witness :
    visit c9w_graph c9w_b ["wb"] [] none = some (["wb v2 (*)"], ["wb"]) :=
  c9_dedup_marker.1 c9w_graph c9w_b ["wb"] [] none (by decide) (by decide)
    (by decide) (by decide) rfl

/-! Identification of the package a rendered line displays. stripIndentL
removes the leading connector blocks; stripLabelL removes a bracketed extra
label; lineNameL keeps the characters before the first space, which for a
displayable name is exactly the package name of the line. -/

def stripIndentL : List Char → List Char
  | '├' :: '─' :: '─' :: ' ' :: rest => stripIndentL rest
  | '│' :: ' ' :: ' ' :: ' ' :: rest => stripIndentL rest
  | '└' :: '─' :: '─' :: ' ' :: rest => stripIndentL rest
  | ' ' :: ' ' :: ' ' :: ' ' :: rest => stripIndentL rest
  | l => l

def stripLabelAux : List Char → List Char
  | ']' :: ' ' :: rest => rest
  | _ :: rest => stripLabelAux rest
  | [] => []

def stripLabelL : List Char → List Char
  | '[' :: rest => stripLabelAux rest
  | l => l

def lineNameL (l : List Char) : List Char :=
  (stripLabelL (stripIndentL l)).takeWhile (fun c => c != ' ')

def lineName (s : String) : String := String.mk (lineNameL s.data)

theorem stripIndentL_zero (c : Char) (l : List Char)
    (h1 : c ≠ '├') (h2 : c ≠ '│') (h3 : c ≠ '└') (h4 : c ≠ ' ') :
    stripIndentL (c :: l) = c :: l := by
  rw [stripIndentL.eq_def]
  split
  · rename_i heq; injection heq with hc _; exact absurd hc h1
  · rename_i heq; injection heq with hc _; exact absurd hc h2
  · rename_i heq; injection heq with hc _; exact absurd hc h3
  · rename_i heq; injection heq with hc _; exact absurd hc h4
  · rfl

theorem stripLabelL_id (c : Char) (l : List Char) (h : c ≠ '[') :
    stripLabelL (c :: l) = c :: l := by
  rw [stripLabelL.eq_def]
  split
  · rename_i heq; injection heq with hc _; exact absurd hc h
  · rfl

theorem stripLabelAux_through (e : List Char) (rest : List Char)
    (h : ']' ∉ e) : stripLabelAux (e ++ ']' :: ' ' :: rest) = rest := by
  induction e with
  | nil => rfl
  | cons c cs ih =>
    have hc : c ≠ ']' := fun hx => h (hx ▸ List.mem_cons_self c cs)
    rw [List.cons_append, stripLabelAux.eq_def]
    split
    · rename_i heq
      injection heq with h1 _
      exact absurd h1 hc
    · rename_i c' rest' heq
      injection heq with h1 h2
      rw [← h2]
      exact ih (fun hx => h (List.mem_cons_of_mem c hx))
    · rename_i heq
      simp at heq

theorem takeWhile_until_space (xs rest : List Char) (h : ' ' ∉ xs) :
    (xs ++ ' ' :: rest).takeWhile (fun c => c != ' ') = xs := by
  induction xs with
  | nil => rfl
  | cons c cs ih =>
    have hc : c ≠ ' ' := fun hx => h (hx ▸ List.mem_cons_self c cs)
    rw [List.cons_append, List.takeWhile_cons]
    have : (c != ' ') = true := by
      simpa using hc
    rw [this]
    simp only [if_true]
    rw [ih (fun hx => h (List.mem_cons_of_mem c hx))]

/-- Data of a renderer base line: the optional label, the name, the space-v
separator and the version, flattened. -/
theorem lineFor_data_none (d : InstalledDist) :
    (lineFor none d).data = d.name.data ++ (' ' :: 'v' :: d.version.data) := by
  show (("" ++ d.name ++ " v") ++ d.version).data = _
  rw [String.data_append, String.data_append, String.data_append]
  rw [List.append_assoc, List.append_assoc]
  rfl

theorem lineFor_data_some (d : InstalledDist) (e : String) :
    (lineFor (some e) d).data =
      '[' :: (e.data ++ (']' :: ' ' :: (d.name.data ++ (' ' :: 'v' :: d.version.data)))) := by
  show ((("[" ++ e ++ "] ") ++ d.name ++ " v") ++ d.version).data = _
  rw [String.data_append, String.data_append, String.data_append,
    String.data_append, String.data_append]
  rw [List.append_assoc, List.append_assoc, List.append_assoc, List.append_assoc]
  rfl

/-- The four connector blocks are transparent to stripIndentL. -/
theorem stripIndentL_block1 (l : List Char) :
    stripIndentL ("└── ".data ++ l) = stripIndentL l := rfl

theorem stripIndentL_block2 (l : List Char) :
    stripIndentL ("├── ".data ++ l) = stripIndentL l := rfl

theorem stripIndentL_block3 (l : List Char) :
    stripIndentL ("│   ".data ++ l) = stripIndentL l := rfl

theorem stripIndentL_block4 (l : List Char) :
    stripIndentL ("    ".data ++ l) = stripIndentL l := rfl

theorem lineName_block_invariant (b s : String)
    (hb : b = "└── " ∨ b = "├── " ∨ b = "│   " ∨ b = "    ") :
    lineName (b ++ s) = lineName s := by
  unfold lineName lineNameL
  rw [String.data_append]
  rcases hb with rfl | rfl | rfl | rfl
  · rw [stripIndentL_block1]
  · rw [stripIndentL_block2]
  · rw [stripIndentL_block3]
  · rw [stripIndentL_block4]

theorem stripIndentL_block_invariant (b s : String)
    (hb : b = "└── " ∨ b = "├── " ∨ b = "│   " ∨ b = "    ") :
    stripIndentL ((b ++ s).data) = stripIndentL s.data := by
  rw [String.data_append]
  rcases hb with rfl | rfl | rfl | rfl
  · rw [stripIndentL_block1]
  · rw [stripIndentL_block2]
  · rw [stripIndentL_block3]
  · rw [stripIndentL_block4]

/-- Name displayed by a base line, with or without marker suffix: it is the
package's own name whenever the name is displayable and any extra label is
free of the closing bracket. -/
theorem lineName_lineFor (d : InstalledDist) (extra : Option String) (suffix : List Char)
    (hg : goodName d.name)
    (hx : ∀ e, extra = some e → ']' ∉ e.data) :
    lineNameL ((lineFor extra d).data ++ suffix) = d.name.data := by
  obtain ⟨hne, hall⟩ := hg
  have hnospace : ' ' ∉ d.name.data := fun hsp => hall ' ' hsp (by decide)
  cases extra with
  | none =>
    cases hdn : d.name.data with
    | nil => exact absurd hdn hne
    | cons c0 cs0 =>
      have hmem0 : c0 ∈ d.name.data := by rw [hdn]; exact List.mem_cons_self c0 cs0
      have hc0 := not_special_blocks (hall c0 hmem0)
      have hbr : c0 ≠ '[' := by
        intro hx0
        exact hall c0 hmem0 (by rw [hx0]; decide)
      have e0 : (lineFor none d).data ++ suffix =
          c0 :: (cs0 ++ (' ' :: ('v' :: d.version.data ++ suffix))) := by
        rw [lineFor_data_none, hdn]
        simp
      unfold lineNameL
      rw [e0, stripIndentL_zero c0 _ hc0.1 hc0.2.1 hc0.2.2.1 hc0.2.2.2,
        stripLabelL_id c0 _ hbr]
      have e1 : c0 :: (cs0 ++ (' ' :: ('v' :: d.version.data ++ suffix))) =
          (c0 :: cs0) ++ (' ' :: ('v' :: d.version.data ++ suffix)) := rfl
      rw [e1, takeWhile_until_space _ _ (hdn ▸ hnospace)]
  | some e =>
    have e0 : (lineFor (some e) d).data ++ suffix =
        '[' :: (e.data ++ (']' :: ' ' ::
          (d.name.data ++ (' ' :: ('v' :: d.version.data ++ suffix))))) := by
      rw [lineFor_data_some]
      simp
    unfold lineNameL
    rw [e0, stripIndentL_zero '[' _ (by decide) (by decide) (by decide) (by decide)]
    have hsl : stripLabelL ('[' :: (e.data ++ (']' :: ' ' ::
        (d.name.data ++ (' ' :: ('v' :: d.version.data ++ suffix)))))) =
        stripLabelAux (e.data ++ (']' :: ' ' ::
          (d.name.data ++ (' ' :: ('v' :: d.version.data ++ suffix))))) := rfl
    rw [hsl, stripLabelAux_through e.data _ (hx e rfl)]
    exact takeWhile_until_space _ _ hnospace

/-- Dependency edge between package names, exactly the per-edge filter of
visit (target installed, marker absent or satisfied against the requirer's
own provided extras). -/
def edgeStep (g : DisplayDependencyGraph) (a b : String) : Prop :=
  ∃ da m r, dist_by_package_name g.site_packages a = some da ∧
    da.metadata = some m ∧ r ∈ m.requires_dist ∧ r.name = b ∧
    ((dist_by_package_name g.site_packages r.name).isSome &&
      (match r.marker with
       | none => true
       | some mk => markerEval mk m.provides_extras)) = true

/-- Name displayed by a plain base line (no marker suffix). -/
theorem lineName_lineFor_plain (d : InstalledDist) (extra : Option String)
    (hg : goodName d.name) (hx : ∀ e, extra = some e → ']' ∉ e.data) :
    lineName (lineFor extra d) = d.name := by
  unfold lineName
  have h := lineName_lineFor d extra [] hg hx
  rw [List.append_nil] at h
  rw [h]

/-- Name displayed by a base line with a marker suffix appended. -/
theorem lineName_lineFor_mark (d : InstalledDist) (extra : Option String) (mark : String)
    (hg : goodName d.name) (hx : ∀ e, extra = some e → ']' ∉ e.data) :
    lineName (lineFor extra d ++ mark) = d.name := by
  unfold lineName
  rw [String.data_append, lineName_lineFor d extra mark.data hg hx]

/-- One step of the marker-filtered dependency graph restricted to unpruned
targets. -/
def prunedStep (g : DisplayDependencyGraph) (a b : String) : Prop :=
  edgeStep g a b ∧ b ∉ g.prune

/-- Reachability of the package displayed by each rendered line: every line a
visit call produces displays a package reachable from the visited package
along marker-satisfied edges avoiding pruned names, and the visited package
itself is unpruned. -/
theorem visit_reach (g : DisplayDependencyGraph)
    (HG : ∀ p ∈ g.site_packages, goodName p.name)
    (HE : ∀ p ∈ g.site_packages, ∀ m, p.metadata = some m →
      ∀ e ∈ m.provides_extras, ']' ∉ e.data) :
    ∀ (d : InstalledDist) (visited path : List String) (extra : Option String),
      dist_by_package_name g.site_packages d.name = some d →
      (∀ e, extra = some e → ']' ∉ e.data) →
      ∀ res, visit g d visited path extra = some res →
        ∀ l ∈ res.1, d.name ∉ g.prune ∧
          Relation.ReflTransGen (prunedStep g) d.name (lineName l) := by
  intro d visited path extra
  refine visit.induct g
    (fun d visited path extra =>
      dist_by_package_name g.site_packages d.name = some d →
      (∀ e, extra = some e → ']' ∉ e.data) →
      ∀ res, visit g d visited path extra = some res →
        ∀ l ∈ res.1, d.name ∉ g.prune ∧
          Relation.ReflTransGen (prunedStep g) d.name (lineName l))
    (fun rps extras used visited path =>
      ∀ (dp : InstalledDist) (m : Metadata),
        dist_by_package_name g.site_packages dp.name = some dp →
        dp.metadata = some m →
        m.provides_extras = extras →
        (∀ r ∈ rps, r ∈ m.requires_dist ∧
          ((dist_by_package_name g.site_packages r.name).isSome &&
            (match r.marker with
             | none => true
             | some mk => markerEval mk m.provides_extras)) = true) →
        dp.name ∉ g.prune →
        ∀ res, visitChildren g rps extras used visited path = some res →
          ∀ l ∈ res.1, Relation.ReflTransGen (prunedStep g) dp.name (lineName l))
    ?_ ?_ ?_ ?_ ?_ ?_ ?_ ?_ ?_ ?_ ?_ ?_ d visited path extra
  · intro d visited path extra h hd hx res hres l hl
    rw [visit_eq_depth g d visited path extra h] at hres
    injection hres with hres
    rw [← hres] at hl
    cases hl
  · intro d visited path extra h1 h2 hd hx res hres l hl
    rw [visit_eq_prune g d visited path extra h1 h2] at hres
    injection hres with hres
    rw [← hres] at hl
    cases hl
  · intro d visited path extra h1 h2 pn h3 hd hx res hres l hl
    rw [visit_eq_cycle g d visited path extra h1 h2 h3] at hres
    injection hres with hres
    rw [← hres] at hl
    rw [List.mem_singleton.mp hl]
    have hg : goodName d.name := HG d (dist_by_package_name_mem hd).1
    refine ⟨fun hmem => h2 (List.elem_eq_true_of_mem hmem), ?_⟩
    rw [lineName_lineFor_mark d extra " (#)" hg hx]
  · intro d visited path extra h1 h2 pn h3 h4 hd hx res hres l hl
    rw [visit_eq_dedup g d visited path extra h1 h2 h3 h4] at hres
    injection hres with hres
    rw [← hres] at hl
    rw [List.mem_singleton.mp hl]
    have hg : goodName d.name := HG d (dist_by_package_name_mem hd).1
    refine ⟨fun hmem => h2 (List.elem_eq_true_of_mem hmem), ?_⟩
    rw [lineName_lineFor_mark d extra " (*)" hg hx]
  · intro d visited path extra h1 h2 pn h3 h4 hm hd hx res hres l hl
    rw [visit_eq_meta_none g d visited path extra h1 h2 h3 h4 hm] at hres
    cases hres
  · intro d visited path extra h1 h2 pn h3 h4 m hm hnone ih hd hx res hres l hl
    rw [visit_eq_expand g d visited path extra m h1 h2 h3 h4 hm] at hres
    have hnone' : visitChildren g
        (m.requires_dist.filter
          (fun r => (dist_by_package_name g.site_packages r.name).isSome &&
            (match r.marker with
             | none => true
             | some mk => markerEval mk m.provides_extras)))
        m.provides_extras [] (visited.insert d.name) (path ++ [d.name]) = none := hnone
    rw [hnone'] at hres
    cases hres
  · intro d visited path extra h1 h2 pn h3 h4 m hm res0 hres0 ih hd hx res hres l hl
    rw [visit_eq_expand g d visited path extra m h1 h2 h3 h4 hm] at hres
    have hres0' : visitChildren g
        (m.requires_dist.filter
          (fun r => (dist_by_package_name g.site_packages r.name).isSome &&
            (match r.marker with
             | none => true
             | some mk => markerEval mk m.provides_extras)))
        m.provides_extras [] (visited.insert d.name) (path ++ [d.name]) = some res0 := hres0
    rw [hres0'] at hres
    injection hres with hres
    rw [← hres] at hl
    have hg : goodName d.name := HG d (dist_by_package_name_mem hd).1
    have hpr : d.name ∉ g.prune := fun hmem => h2 (List.elem_eq_true_of_mem hmem)
    rcases List.mem_cons.mp hl with rfl | hl'
    · refine ⟨hpr, ?_⟩
      rw [lineName_lineFor_plain d extra hg hx]
    · refine ⟨hpr, ?_⟩
      refine ih d m hd hm rfl ?_ hpr res0 hres0 l hl'
      intro r hr
      have hmf := List.mem_filter.mp hr
      exact ⟨hmf.1, hmf.2⟩
  · intro extras used visited path dp m hdp hm hex hsub hpr res hres l hl
    rw [visitChildren_nil] at hres
    injection hres with hres
    rw [← hres] at hl
    cases hl
  · intro extras used visited path rp rest hlook dp m hdp hm hex hsub hpr res hres l hl
    rw [visitChildren_cons_lookup_none g rp rest extras used visited path hlook] at hres
    cases hres
  · intro extras used visited path rp rest ef cd hlook hnone ih dp m hdp hm hex hsub hpr
      res hres l hl
    rw [visitChildren_cons_visit_none g rp rest extras used visited path cd hlook hnone]
      at hres
    cases hres
  · intro extras used visited path rp rest ef used' cd hlook cres hcres hnone ih1 ih2
      dp m hdp hm hex hsub hpr res hres l hl
    rw [visitChildren_cons_rest_none g rp rest extras used visited path cd cres hlook
      hcres hnone] at hres
    cases hres
  · intro extras used visited path rp rest ef used' cd hlook cres hcres res2 hres2
      ih1 ih2 dp m hdp hm hex hsub hpr res hres l hl
    rw [visitChildren_cons_some g rp rest extras used visited path cd cres res2 hlook
      hcres hres2] at hres
    injection hres with hres
    rw [← hres] at hl
    have hcdname : cd.name = rp.name := (dist_by_package_name_mem hlook).2
    have hlookcd : dist_by_package_name g.site_packages cd.name = some cd := by
      rw [hcdname]
      exact hlook
    have hxc : ∀ e, childExtra rp extras used = some e → ']' ∉ e.data := by
      intro e he
      have hemem : e ∈ extras := List.mem_of_find?_eq_some he
      rw [← hex] at hemem
      exact HE dp (dist_by_package_name_mem hdp).1 m hm e hemem
    have hstep : edgeStep g dp.name cd.name := by
      refine ⟨dp, m, rp, hdp, hm, (hsub rp (List.mem_cons_self rp rest)).1, hcdname.symm, ?_⟩
      exact (hsub rp (List.mem_cons_self rp rest)).2
    rcases List.mem_append.mp hl with hl' | hl'
    · obtain ⟨l0, hl0, hcase⟩ := prefixLines_mem hl'
      obtain ⟨hcdpr, hreach⟩ := ih1 hlookcd hxc cres hcres l0 hl0
      have hname : lineName l = lineName l0 := by
        by_cases hre : rest.isEmpty
        · simp only [hre, if_true] at hcase
          rcases hcase with rfl | rfl
          · exact lineName_block_invariant _ l0 (Or.inl rfl)
          · exact lineName_block_invariant _ l0 (Or.inr (Or.inr (Or.inr rfl)))
        · simp only [hre, if_false, Bool.false_eq_true] at hcase
          rcases hcase with rfl | rfl
          · exact lineName_block_invariant _ l0 (Or.inr (Or.inl rfl))
          · exact lineName_block_invariant _ l0 (Or.inr (Or.inr (Or.inl rfl)))
      rw [hname]
      exact Relation.ReflTransGen.head ⟨hstep, hcdpr⟩ hreach
    · exact ih2 dp m hdp hm hex
        (fun r hr => hsub r (List.mem_cons_of_mem rp hr)) hpr res2 hres2 l hl'

/-- Every rendered line displays a package reachable, along marker-satisfied
edges avoiding pruned names, from some unpruned root of the traversal. -/
theorem renderRoots_reach (g : DisplayDependencyGraph)
    (HG : ∀ p ∈ g.site_packages, goodName p.name)
    (HE : ∀ p ∈ g.site_packages, ∀ m, p.metadata = some m →
      ∀ e ∈ m.provides_extras, ']' ∉ e.data)
    (Hnodup : (g.site_packages.map InstalledDist.name).Nodup) (req : List String) :
    ∀ (pkgs : List InstalledDist), (∀ p ∈ pkgs, p ∈ g.site_packages) →
      ∀ (visited lines0 out : List String),
        renderRoots g req pkgs visited lines0 = some out →
        ∀ l ∈ out, l ∈ lines0 ∨
          ∃ rt ∈ g.site_packages, req.contains rt.name = false ∧ rt.name ∉ g.prune ∧
            Relation.ReflTransGen (prunedStep g) rt.name (lineName l) := by
  intro pkgs
  induction pkgs with
  | nil =>
    intro _ visited lines0 out hout l hl
    injection hout with hout
    rw [← hout] at hl
    exact Or.inl hl
  | cons p rest ih =>
    intro hsub visited lines0 out hout l hl
    by_cases hreq : req.contains p.name
    · simp only [renderRoots, hreq, if_true] at hout
      exact ih (fun q hq => hsub q (List.mem_cons_of_mem p hq)) visited lines0 out hout l hl
    · simp only [renderRoots, hreq, if_false, Bool.false_eq_true] at hout
      cases hv : visit g p visited [] none with
      | none =>
        rw [hv] at hout
        cases hout
      | some res =>
        rw [hv] at hout
        rcases ih (fun q hq => hsub q (List.mem_cons_of_mem p hq)) res.2 (lines0 ++ res.1)
          out hout l hl with hmem | hfound
        · rcases List.mem_append.mp hmem with hm0 | hm1
          · exact Or.inl hm0
          · right
            have hp : p ∈ g.site_packages := hsub p (List.mem_cons_self p rest)
            obtain ⟨hpr, hreach⟩ := visit_reach g HG HE p visited [] none
              (dist_by_package_name_self Hnodup hp) (fun e he => by cases he)
              res hv l hm1
            exact ⟨p, hp, Bool.of_not_eq_true hreq, hpr, hreach⟩
        · exact Or.inr hfound

/-! Claim C8: pruning and exclusive descendants. -/

/-- C8: for a pruned name p, no rendered line displays p; and no line
displays any package q that is reachable from the traversal's roots only
through p — formalized: if no installed root (package required by nobody)
other than p reaches q through marker-satisfied edges avoiding p, then no
line displays q. Instantiating q at p itself yields the first half, since a
p-avoiding reach cannot end at p. Hypotheses: unique displayable names,
extras free of the closing bracket. -/
theorem c8_prune_subtree (g : DisplayDependencyGraph) (p q : String)
    (req lines : List String)
    (Hnodup : (g.site_packages.map InstalledDist.name).Nodup)
    (HG : ∀ pk ∈ g.site_packages, goodName pk.name)
    (HE : ∀ pk ∈ g.site_packages, ∀ m, pk.metadata = some m →
      ∀ e ∈ m.provides_extras, ']' ∉ e.data)
    (hp : p ∈ g.prune)
    (hreq : required_packages g.site_packages g.site_packages = some req)
    (hlines : render g = some lines)
    (HQ : ∀ rt ∈ g.site_packages, req.contains rt.name = false → rt.name ≠ p →
      ¬ Relation.ReflTransGen (fun x y => edgeStep g x y ∧ y ≠ p) rt.name q) :
    ∀ l ∈ lines, lineName l ≠ q := by
  intro l hl hq
  unfold render at hlines
  rw [hreq] at hlines
  rcases renderRoots_reach g HG HE Hnodup req g.site_packages (fun pk hpk => hpk)
    [] [] lines hlines l hl with hmem | ⟨rt, hrt, hrtreq, hrtpr, hreach⟩
  · cases hmem
  · have hrtp : rt.name ≠ p := fun hx => hrtpr (hx ▸ hp)
    apply HQ rt hrt hrtreq hrtp
    rw [← hq]
    refine Relation.ReflTransGen.mono ?_ hreach
    intro a b hab
    exact ⟨hab.1, fun hx => hab.2 (hx ▸ hp)⟩

def c8w_r : InstalledDist := ⟨"r", "1", some ⟨[Requirement.mk "p" none], []⟩⟩

def c8w_p : InstalledDist := ⟨"p", "1", some ⟨[Requirement.mk "s" none], []⟩⟩

def c8w_s : InstalledDist := ⟨"s", "1", some ⟨[], []⟩⟩

def c8w_g : DisplayDependencyGraph := ⟨[c8w_r, c8w_p, c8w_s], 255, ["p"], false⟩

/-- C8 witness: pruning p in the chain r requires p requires s leaves only
the root line for r; the single rendered line displays neither s (reachable
only through p) nor p itself. -/
theorem c8_witness : lineName "r v1" ≠ "s" ∧ lineName "r v1" ≠ "p" := by
  have hrender : render c8w_g = some ["r v1"] := by
    rw [← renderExec_eq]
    decide
  have hedge : ∀ y : String, edgeStep c8w_g "r" y → y = "p" := by
    intro y hy
    obtain ⟨da, m, r, hda, hm, hr, hrn, _⟩ := hy
    have hda' : dist_by_package_name c8w_g.site_packages "r" = some c8w_r := rfl
    rw [hda'] at hda
    injection hda with hda
    rw [← hda] at hm
    injection hm with hm
    rw [← hm] at hr
    have hr' := List.mem_singleton.mp hr
    rw [← hrn, hr']
  have hnoreach : ∀ q : String, q ≠ "r" →
      ¬ Relation.ReflTransGen (fun x y => edgeStep c8w_g x y ∧ y ≠ "p") "r" q := by
    intro q hqr hreach
    rcases hreach.cases_head with heq | ⟨y, hy, _⟩
    · exact hqr heq.symm
    · exact hy.2 (hedge y hy.1)
  have happly : ∀ q0 : String, q0 ≠ "r" → lineName "r v1" ≠ q0 := by
    intro q0 hq0
    refine c8_prune_subtree c8w_g "p" q0 ["p", "s"] ["r v1"] (by decide) (by decide)
      (by decide) (by decide) (by decide) hrender ?_ "r v1" (by decide)
    intro rt hrt hrtreq hrtp
    rcases List.mem_cons.mp hrt with rfl | hrt'
    · exact hnoreach q0 hq0
    · rcases List.mem_cons.mp hrt' with rfl | hrt''
      · exact absurd hrtreq (by decide)
      · rw [List.mem_singleton.mp hrt''] at hrtreq
        exact absurd hrtreq (by decide)
  exact ⟨happly "s" (by decide), happly "p" (by decide)⟩

/-! Tools for claim C4: acyclicity (well-foundedness of the edge relation),
distinctness of traversal paths, and disambiguation of rendered lines. -/

theorem wf_irrefl {α : Type} {r : α → α → Prop} (h : WellFounded r) (a : α) : ¬ r a a := by
  induction a using WellFounded.induction h with
  | _ x ih =>
    intro hr
    exact ih x hr hr

theorem chain'_nodup {r : String → String → Prop} (hwf : WellFounded r)
    {l : List String} (hc : List.Chain' r l) : l.Nodup := by
  have h2 : List.Chain' (Relation.TransGen r) l :=
    List.Chain'.imp (fun a b hab => Relation.TransGen.single hab) hc
  have hpw := List.chain'_iff_pairwise.mp h2
  refine hpw.imp ?_
  intro a b hab heq
  exact wf_irrefl hwf.transGen a (heq ▸ hab)

theorem installed_name_mem {g : DisplayDependencyGraph} {x : String}
    (h : (dist_by_package_name g.site_packages x).isSome) :
    x ∈ g.site_packages.map InstalledDist.name := by
  obtain ⟨d, hd⟩ := Option.isSome_iff_exists.mp h
  obtain ⟨hmem, hn⟩ := dist_by_package_name_mem hd
  exact List.mem_map.mpr ⟨d, hmem, hn⟩

theorem paren_not_in_base (d : InstalledDist) (hg : goodName d.name)
    (hv : '(' ∉ d.version.data) : '(' ∉ (lineFor none d).data := by
  rw [lineFor_data_none]
  intro hmem
  rcases List.mem_append.mp hmem with h1 | h2
  · exact hg.2 '(' h1 (by decide)
  · rcases List.mem_cons.mp h2 with heq | h3
    · exact absurd heq (by decide)
    · rcases List.mem_cons.mp h3 with heq | h4
      · exact absurd heq (by decide)
      · exact hv h4

theorem paren_in_mark (x mark : String) (hm : '(' ∈ mark.data) :
    '(' ∈ (x ++ mark).data := by
  rw [String.data_append]
  exact List.mem_append_right _ hm

theorem stripIndentL_base (d : InstalledDist) (hg : goodName d.name) (suffix : List Char) :
    stripIndentL ((lineFor none d).data ++ suffix) = (lineFor none d).data ++ suffix := by
  cases hdn : d.name.data with
  | nil => exact absurd hdn hg.1
  | cons c0 cs0 =>
    have hmem0 : c0 ∈ d.name.data := by rw [hdn]; exact List.mem_cons_self c0 cs0
    have hc0 := not_special_blocks (hg.2 c0 hmem0)
    have e0 : (lineFor none d).data ++ suffix =
        c0 :: (cs0 ++ ((' ' :: 'v' :: d.version.data) ++ suffix)) := by
      rw [lineFor_data_none, hdn]
      simp
    rw [e0]
    exact stripIndentL_zero c0 _ hc0.1 hc0.2.1 hc0.2.2.1 hc0.2.2.2

theorem stripIndentL_base_plain (d : InstalledDist) (hg : goodName d.name) :
    stripIndentL (lineFor none d).data = (lineFor none d).data := by
  have h := stripIndentL_base d hg []
  rwa [List.append_nil] at h

theorem stripIndentL_base_mark (d : InstalledDist) (mark : String) (hg : goodName d.name) :
    stripIndentL (lineFor none d ++ mark).data = (lineFor none d ++ mark).data := by
  rw [String.data_append]
  exact stripIndentL_base d hg mark.data

theorem append_space_inj : ∀ (xs1 xs2 t1 t2 : List Char), ' ' ∉ xs1 → ' ' ∉ xs2 →
    xs1 ++ ' ' :: t1 = xs2 ++ ' ' :: t2 → xs1 = xs2 ∧ t1 = t2 := by
  intro xs1
  induction xs1 with
  | nil =>
    intro xs2 t1 t2 _ h2 heq
    cases xs2 with
    | nil =>
      constructor
      · rfl
      · injection heq
    | cons c2 cs2 =>
      rw [List.nil_append, List.cons_append] at heq
      injection heq with hc _
      exact absurd (hc ▸ List.mem_cons_self c2 cs2) h2
  | cons c1 cs1 ih =>
    intro xs2 t1 t2 h1 h2 heq
    cases xs2 with
    | nil =>
      rw [List.cons_append, List.nil_append] at heq
      injection heq with hc _
      exact absurd (hc ▸ List.mem_cons_self c1 cs1) h1
    | cons c2 cs2 =>
      rw [List.cons_append, List.cons_append] at heq
      injection heq with hc hrest
      obtain ⟨hx, ht⟩ := ih cs2 t1 t2 (fun hm => h1 (List.mem_cons_of_mem c1 hm))
        (fun hm => h2 (List.mem_cons_of_mem c2 hm)) hrest
      exact ⟨by rw [hc, hx], ht⟩

theorem base_inj (d1 d2 : InstalledDist) (h1 : goodName d1.name) (h2 : goodName d2.name)
    (heq : (lineFor none d1).data = (lineFor none d2).data) : d1.name = d2.name := by
  rw [lineFor_data_none, lineFor_data_none] at heq
  have hs1 : ' ' ∉ d1.name.data := fun hm => h1.2 ' ' hm (by decide)
  have hs2 : ' ' ∉ d2.name.data := fun hm => h2.2 ' ' hm (by decide)
  have h := append_space_inj d1.name.data d2.name.data _ _ hs1 hs2 heq
  exact String.ext h.1

theorem star_ne_base (d dy : InstalledDist) (hgdy : goodName dy.name)
    (hvdy : '(' ∉ dy.version.data) :
    (lineFor none d ++ " (*)").data ≠ (lineFor none dy).data := by
  intro heq
  apply paren_not_in_base dy hgdy hvdy
  rw [← heq]
  exact paren_in_mark _ _ (by decide)

theorem hash_ne_base (d dy : InstalledDist) (hgdy : goodName dy.name)
    (hvdy : '(' ∉ dy.version.data) :
    (lineFor none d ++ " (#)").data ≠ (lineFor none dy).data := by
  intro heq
  apply paren_not_in_base dy hgdy hvdy
  rw [← heq]
  exact paren_in_mark _ _ (by decide)

theorem hash_ne_star (d dy : InstalledDist) :
    (lineFor none d ++ " (#)").data ≠ (lineFor none dy ++ " (*)").data := by
  intro heq
  rw [String.data_append, String.data_append] at heq
  have hlen : (" (#)".data).length = (" (*)".data).length := by decide
  have h := List.append_inj' heq hlen
  have h2 := h.2
  exact absurd h2 (by decide)

/-- Invariant tying one traversal step's output to the growth of the visited
set, for collections without markers: the visited set only grows; names newly
visited are closed under dependency edges, each owns a plain (unstarred)
fully-expanded line, and contributes at most one such line; and every line is
the base line or the starred line of some installed package. -/
def C4Post (g : DisplayDependencyGraph) (visited : List String)
    (res : List String × List String) : Prop :=
  visited ⊆ res.2 ∧
  (∀ u ∈ res.2, u ∉ visited → ∀ v, edgeStep g u v → v ∈ res.2) ∧
  (∀ u ∈ res.2, u ∉ visited → ∀ du, dist_by_package_name g.site_packages u = some du →
    ∃ l ∈ res.1, stripIndentL l.data = (lineFor none du).data) ∧
  (∀ dy ∈ g.site_packages,
    res.1.countP (fun l => stripIndentL l.data == (lineFor none dy).data) ≤
      (if dy.name ∈ res.2 ∧ dy.name ∉ visited then 1 else 0)) ∧
  (∀ l ∈ res.1, ∃ d', dist_by_package_name g.site_packages d'.name = some d' ∧
    (stripIndentL l.data = (lineFor none d').data ∨
     stripIndentL l.data = (lineFor none d' ++ " (*)").data))

theorem childExtra_none (rp : Requirement) (extras used : List String)
    (hmk : rp.marker = none) : childExtra rp extras used = none := by
  unfold childExtra
  rw [hmk]
  apply List.find?_eq_none.mpr
  intro e _
  simp

theorem prefixLines_mem_of {p q : String} {ls : List String} {l0 : String} (h : l0 ∈ ls) :
    ∃ l ∈ prefixLines p q ls, l = p ++ l0 ∨ l = q ++ l0 := by
  cases ls with
  | nil => cases h
  | cons a t =>
    rcases List.mem_cons.mp h with rfl | h'
    · exact ⟨p ++ l0, List.mem_cons_self _ _, Or.inl rfl⟩
    · exact ⟨q ++ l0, List.mem_cons_of_mem _ (List.mem_map.mpr ⟨l0, h', rfl⟩), Or.inr rfl⟩

theorem countP_prefixLines (pred : String → Bool)
    (hpred : ∀ b : String, (b = "└── " ∨ b = "├── " ∨ b = "│   " ∨ b = "    ") →
      ∀ l, pred (b ++ l) = pred l)
    (ptop prest : String)
    (hp : ptop = "└── " ∨ ptop = "├── " ∨ ptop = "│   " ∨ ptop = "    ")
    (hq : prest = "└── " ∨ prest = "├── " ∨ prest = "│   " ∨ prest = "    ")
    (ls : List String) :
    (prefixLines ptop prest ls).countP pred = ls.countP pred := by
  cases ls with
  | nil => rfl
  | cons a t =>
    simp only [prefixLines]
    rw [List.countP_cons, List.countP_cons, List.countP_map, hpred ptop hp a]
    have hcong : t.countP (pred ∘ (fun s => prest ++ s)) = t.countP pred := by
      apply List.countP_congr
      intro x _
      simp only [Function.comp_apply, hpred prest hq x]
    rw [hcong]

/-- Connector blocks do not change the strip-based line classification. -/
theorem plainB_block_invariant (base : List Char) (b : String)
    (hb : b = "└── " ∨ b = "├── " ∨ b = "│   " ∨ b = "    ") (l : String) :
    (stripIndentL (b ++ l).data == base) = (stripIndentL l.data == base) := by
  rw [stripIndentL_block_invariant b l hb]

theorem path_short (g : DisplayDependencyGraph)
    (Hwf : WellFounded (edgeStep g)) (Hdepth : g.site_packages.length ≤ g.depth)
    {path : List String} {nm : String}
    (hchain : List.Chain' (edgeStep g) (path ++ [nm]))
    (hinst : ∀ x ∈ path, (dist_by_package_name g.site_packages x).isSome)
    (hnm : (dist_by_package_name g.site_packages nm).isSome) :
    path.length < g.depth ∧ (path ++ [nm]).Nodup := by
  have hnd := chain'_nodup Hwf hchain
  have hsub : (path ++ [nm]) ⊆ g.site_packages.map InstalledDist.name := by
    intro x hx
    rcases List.mem_append.mp hx with hx1 | hx2
    · exact installed_name_mem (hinst x hx1)
    · rw [List.mem_singleton.mp hx2]
      exact installed_name_mem hnm
  have hlen := List.Subperm.length_le (List.subperm_of_subset hnd hsub)
  refine ⟨?_, hnd⟩
  rw [List.length_append, List.length_singleton, List.length_map] at hlen
  omega

/-- Core of claim C4: over a marker-free, unpruned, deduplicating render with
depth at least the number of installed packages and an acyclic dependency
graph, every visit call satisfies the visited-set invariant and marks its own
package visited. -/
theorem visit_c4 (g : DisplayDependencyGraph)
    (HG : ∀ p ∈ g.site_packages, goodName p.name)
    (HV : ∀ p ∈ g.site_packages, '(' ∉ p.version.data)
    (Hnodup : (g.site_packages.map InstalledDist.name).Nodup)
    (HM0 : ∀ p ∈ g.site_packages, ∀ m, p.metadata = some m →
      ∀ r ∈ m.requires_dist, r.marker = none)
    (Hprune : g.prune = [])
    (Hnd : g.no_dedupe = false)
    (Hdepth : g.site_packages.length ≤ g.depth)
    (Hwf : WellFounded (edgeStep g)) :
    ∀ (d : InstalledDist) (visited path : List String) (extra : Option String),
      dist_by_package_name g.site_packages d.name = some d →
      extra = none →
      List.Chain' (edgeStep g) (path ++ [d.name]) →
      (∀ x ∈ path, (dist_by_package_name g.site_packages x).isSome) →
      ∀ res, visit g d visited path extra = some res →
        C4Post g visited res ∧ d.name ∈ res.2 := by
  intro d visited path extra
  refine visit.induct g
    (fun d visited path extra =>
      dist_by_package_name g.site_packages d.name = some d →
      extra = none →
      List.Chain' (edgeStep g) (path ++ [d.name]) →
      (∀ x ∈ path, (dist_by_package_name g.site_packages x).isSome) →
      ∀ res, visit g d visited path extra = some res →
        C4Post g visited res ∧ d.name ∈ res.2)
    (fun rps extras used visited path =>
      ∀ (dp : InstalledDist) (m : Metadata),
        dist_by_package_name g.site_packages dp.name = some dp →
        dp.metadata = some m →
        (∀ r ∈ rps, r ∈ m.requires_dist ∧
          ((dist_by_package_name g.site_packages r.name).isSome &&
            (match r.marker with
             | none => true
             | some mk => markerEval mk m.provides_extras)) = true) →
        path.getLast? = some dp.name →
        List.Chain' (edgeStep g) path →
        (∀ x ∈ path, (dist_by_package_name g.site_packages x).isSome) →
        ∀ res, visitChildren g rps extras used visited path = some res →
          C4Post g visited res ∧
          (∀ rp ∈ rps, ∀ cd, dist_by_package_name g.site_packages rp.name = some cd →
            cd.name ∈ res.2))
    ?_ ?_ ?_ ?_ ?_ ?_ ?_ ?_ ?_ ?_ ?_ ?_ d visited path extra
  · -- depth short-circuit: impossible, the path is a nodup chain of installed names
    intro d visited path extra h hd hex hchain hinst res hres
    exfalso
    have hnm : (dist_by_package_name g.site_packages d.name).isSome := by
      rw [hd]; rfl
    have := (path_short g Hwf Hdepth hchain hinst hnm).1
    omega
  · -- prune short-circuit: impossible, the prune list is empty
    intro d visited path extra h1 h2 hd hex hchain hinst res hres
    rw [Hprune] at h2
    simp at h2
  · -- cycle: impossible, the extended path is nodup
    intro d visited path extra h1 h2 pn h3 hd hex hchain hinst res hres
    exfalso
    have hnm : (dist_by_package_name g.site_packages d.name).isSome := by
      rw [hd]; rfl
    have hnd := (path_short g Hwf Hdepth hchain hinst hnm).2
    have hmem : d.name ∈ path := List.mem_of_elem_eq_true h3
    have hdisj := (List.nodup_append.mp hnd).2.2
    exact hdisj hmem (List.mem_singleton.mpr rfl)
  · -- dedup: one starred line, visited unchanged
    intro d visited path extra h1 h2 pn h3 h4 hd hex hchain hinst res hres
    subst hex
    rw [visit_eq_dedup g d visited path none h1 h2 h3 h4] at hres
    injection hres with hres
    rw [← hres]
    have hdmem : d ∈ g.site_packages := (dist_by_package_name_mem hd).1
    have hgd : goodName d.name := HG d hdmem
    have hdv : d.name ∈ visited := by
      rw [Hnd] at h4
      simp only [Bool.not_false, Bool.and_true] at h4
      exact List.mem_of_elem_eq_true h4
    refine ⟨⟨fun x hx => hx, ?_, ?_, ?_, ?_⟩, hdv⟩
    · intro u hu hnu
      exact absurd hu hnu
    · intro u hu hnu
      exact absurd hu hnu
    · intro dy hdy
      have hbq : (stripIndentL (lineFor none d ++ " (*)").data ==
          (lineFor none dy).data) = false := by
        rw [stripIndentL_base_mark d " (*)" hgd]
        exact beq_eq_false_iff_ne.mpr (star_ne_base d dy (HG dy hdy) (HV dy hdy))
      rw [List.countP_cons, List.countP_nil, hbq]
      simp
    · intro l hl
      rw [List.mem_singleton.mp hl]
      refine ⟨d, hd, Or.inr ?_⟩
      exact stripIndentL_base_mark d " (*)" hgd
  · -- metadata read failure: the call panics, contradiction
    intro d visited path extra h1 h2 pn h3 h4 hm hd hex hchain hinst res hres
    rw [visit_eq_meta_none g d visited path extra h1 h2 h3 h4 hm] at hres
    cases hres
  · -- children panic: contradiction
    intro d visited path extra h1 h2 pn h3 h4 m hm hnone ih hd hex hchain hinst res hres
    rw [visit_eq_expand g d visited path extra m h1 h2 h3 h4 hm] at hres
    have hnone' : visitChildren g
        (m.requires_dist.filter
          (fun r => (dist_by_package_name g.site_packages r.name).isSome &&
            (match r.marker with
             | none => true
             | some mk => markerEval mk m.provides_extras)))
        m.provides_extras [] (visited.insert d.name) (path ++ [d.name]) = none := hnone
    rw [hnone'] at hres
    cases hres
  · -- expansion
    intro d visited path extra h1 h2 pn h3 h4 m hm res0 hres0 ih hd hex hchain hinst res hres
    subst hex
    rw [visit_eq_expand g d visited path none m h1 h2 h3 h4 hm] at hres
    have hres0' : visitChildren g
        (m.requires_dist.filter
          (fun r => (dist_by_package_name g.site_packages r.name).isSome &&
            (match r.marker with
             | none => true
             | some mk => markerEval mk m.provides_extras)))
        m.provides_extras [] (visited.insert d.name) (path ++ [d.name]) = some res0 := hres0
    rw [hres0'] at hres
    injection hres with hres
    rw [← hres]
    have hdmem : d ∈ g.site_packages := (dist_by_package_name_mem hd).1
    have hgd : goodName d.name := HG d hdmem
    have hdnv : d.name ∉ visited := by
      intro hx
      apply h4
      rw [Hnd]
      simp only [Bool.not_false, Bool.and_true]
      exact List.elem_eq_true_of_mem hx
    obtain ⟨hpost, htargets⟩ := ih d m hd hm
      (fun r hr => ⟨(List.mem_filter.mp hr).1, (List.mem_filter.mp hr).2⟩)
      (List.getLast?_concat path)
      hchain
      (by
        intro x hx
        rcases List.mem_append.mp hx with hx1 | hx2
        · exact hinst x hx1
        · rw [List.mem_singleton.mp hx2, hd]; rfl)
      res0 hres0
    obtain ⟨hmono, hclose, hlink, hcount, hshape⟩ := hpost
    have hdin : d.name ∈ res0.2 := hmono (List.mem_insert_self d.name visited)
    refine ⟨⟨?_, ?_, ?_, ?_, ?_⟩, hdin⟩
    · intro x hx
      exact hmono (List.mem_insert_of_mem hx)
    · intro u hu hnu v hv
      by_cases hud : u = d.name
      · subst hud
        obtain ⟨da, m', r, hda, hm', hrr, hrn, hpred⟩ := hv
        rw [hd] at hda
        injection hda with hda
        rw [← hda] at hm'
        rw [hm] at hm'
        injection hm' with hm'
        subst hm'
        have hrf : r ∈ m.requires_dist.filter
            (fun r => (dist_by_package_name g.site_packages r.name).isSome &&
              (match r.marker with
               | none => true
               | some mk => markerEval mk m.provides_extras)) :=
          List.mem_filter.mpr ⟨hrr, hpred⟩
        have hsome : (dist_by_package_name g.site_packages r.name).isSome :=
          ((Bool.and_eq_true _ _).mp hpred).1
        obtain ⟨cd, hcd⟩ := Option.isSome_iff_exists.mp hsome
        have := htargets r hrf cd hcd
        rw [(dist_by_package_name_mem hcd).2, hrn] at this
        exact this
      · have hui : u ∉ visited.insert d.name := by
          intro hx
          rcases List.mem_insert_iff.mp hx with hx1 | hx2
          · exact hud hx1
          · exact hnu hx2
        exact hclose u hu hui v hv
    · intro u hu hnu du hdu
      by_cases hud : u = d.name
      · subst hud
        have : du = d := by
          rw [hd] at hdu
          injection hdu with h
          exact h.symm
        subst this
        exact ⟨lineFor none du, List.mem_cons_self _ _, stripIndentL_base_plain du hgd⟩
      · have hui : u ∉ visited.insert d.name := by
          intro hx
          rcases List.mem_insert_iff.mp hx with hx1 | hx2
          · exact hud hx1
          · exact hnu hx2
        obtain ⟨l, hlmem, hlstrip⟩ := hlink u hu hui du hdu
        exact ⟨l, List.mem_cons_of_mem _ hlmem, hlstrip⟩
    · intro dy hdy
      rw [List.countP_cons]
      by_cases hdyd : dy.name = d.name
      · have : dy = d := List.inj_on_of_nodup_map Hnodup hdy hdmem hdyd
        subst this
        have hbq : (stripIndentL (lineFor none dy).data == (lineFor none dy).data) = true := by
          rw [stripIndentL_base_plain dy hgd]
          exact beq_self_eq_true _
        rw [hbq, if_pos rfl]
        have hc0 := hcount dy hdy
        have : ¬ (dy.name ∈ res0.2 ∧ dy.name ∉ visited.insert dy.name) := by
          intro hx
          exact hx.2 (List.mem_insert_self dy.name visited)
        rw [if_neg this] at hc0
        have hif : dy.name ∈ res0.2 ∧ dy.name ∉ visited := ⟨hdin, hdnv⟩
        rw [if_pos hif]
        omega
      · have hbq : (stripIndentL (lineFor none d).data == (lineFor none dy).data) = false := by
          rw [stripIndentL_base_plain d hgd]
          refine beq_eq_false_iff_ne.mpr ?_
          intro heq
          exact hdyd (base_inj d dy hgd (HG dy hdy) heq).symm
        rw [hbq, if_neg (by simp : ¬ (false = true))]
        have hc0 := hcount dy hdy
        by_cases hcond : dy.name ∈ res0.2 ∧ dy.name ∉ visited.insert d.name
        · have htgt : dy.name ∈ res0.2 ∧ dy.name ∉ visited := by
            refine ⟨hcond.1, fun hx => hcond.2 (List.mem_insert_of_mem hx)⟩
          rw [if_pos hcond] at hc0
          rw [if_pos htgt]
          omega
        · rw [if_neg hcond] at hc0
          have h00 : res0.1.countP
              (fun l => stripIndentL l.data == (lineFor none dy).data) = 0 := by
            omega
          rw [h00]
          exact Nat.zero_le _
    · intro l hl
      rcases List.mem_cons.mp hl with rfl | hl'
      · exact ⟨d, hd, Or.inl (stripIndentL_base_plain d hgd)⟩
      · exact hshape l hl'
  · -- children nil
    intro extras used visited path dp m hdp hm hsub hlast hchain hinst res hres
    rw [visitChildren_nil] at hres
    injection hres with hres
    rw [← hres]
    refine ⟨⟨fun x hx => hx, ?_, ?_, ?_, ?_⟩, ?_⟩
    · intro u hu hnu
      exact absurd hu hnu
    · intro u hu hnu
      exact absurd hu hnu
    · intro dy _
      rw [List.countP_nil]
      simp
    · intro l hl
      cases hl
    · intro rp hrp
      cases hrp
  · -- children: lookup panic, contradiction
    intro extras used visited path rp rest hlook dp m hdp hm hsub hlast hchain hinst res hres
    rw [visitChildren_cons_lookup_none g rp rest extras used visited path hlook] at hres
    cases hres
  · -- children: child visit panic, contradiction
    intro extras used visited path rp rest ef cd hlook hnone ih dp m hdp hm hsub hlast
      hchain hinst res hres
    rw [visitChildren_cons_visit_none g rp rest extras used visited path cd hlook hnone]
      at hres
    cases hres
  · -- children: tail panic, contradiction
    intro extras used visited path rp rest ef used' cd hlook cres hcres hnone ih1 ih2
      dp m hdp hm hsub hlast hchain hinst res hres
    rw [visitChildren_cons_rest_none g rp rest extras used visited path cd cres hlook
      hcres hnone] at hres
    cases hres
  · -- children: one child expanded, then the rest
    intro extras used visited path rp rest ef used' cd hlook cres hcres res2 hres2
      ih1 ih2 dp m hdp hm hsub hlast hchain hinst res hres
    rw [visitChildren_cons_some g rp rest extras used visited path cd cres res2 hlook
      hcres hres2] at hres
    injection hres with hres
    rw [← hres]
    have hdpmem : dp ∈ g.site_packages := (dist_by_package_name_mem hdp).1
    have hrpm : rp ∈ m.requires_dist := (hsub rp (List.mem_cons_self rp rest)).1
    have hmk : rp.marker = none := HM0 dp hdpmem m hm rp hrpm
    have hcdname : cd.name = rp.name := (dist_by_package_name_mem hlook).2
    have hlookcd : dist_by_package_name g.site_packages cd.name = some cd := by
      rw [hcdname]; exact hlook
    have hefnone : childExtra rp extras used = none := childExtra_none rp extras used hmk
    have hcres' : visit g cd visited path none = some cres := by
      rw [← hefnone]
      exact hcres
    have hstep : edgeStep g dp.name cd.name :=
      ⟨dp, m, rp, hdp, hm, hrpm, hcdname.symm, (hsub rp (List.mem_cons_self rp rest)).2⟩
    have hchain2 : List.Chain' (edgeStep g) (path ++ [cd.name]) := by
      rw [List.chain'_append]
      refine ⟨hchain, List.chain'_singleton cd.name, ?_⟩
      intro x hx y hy
      have hx' : x = dp.name := by
        have hgl := Option.mem_def.mp hx
        rw [hlast] at hgl
        injection hgl with hgl
        exact hgl.symm
      have hy' : y = cd.name := by
        have := by simpa using hy
        exact this.symm
      rw [hx', hy']
      exact hstep
    obtain ⟨post1, hcdv⟩ := ih1 hlookcd hefnone hchain2
      (by
        intro x hx
        exact hinst x hx)
      cres hcres
    obtain ⟨mono1, close1, link1, count1, shape1⟩ := post1
    obtain ⟨post2, htg2⟩ := ih2 dp m hdp hm
      (fun r hr => hsub r (List.mem_cons_of_mem rp hr)) hlast hchain hinst res2 hres2
    obtain ⟨mono2, close2, link2, count2, shape2⟩ := post2
    have hpt : (if rest.isEmpty then "└── " else "├── ") = "└── " ∨
        (if rest.isEmpty then "└── " else "├── ") = "├── " ∨
        (if rest.isEmpty then "└── " else "├── ") = "│   " ∨
        (if rest.isEmpty then "└── " else "├── ") = "    " := by
      by_cases hre : rest.isEmpty
      · rw [if_pos hre]; exact Or.inl rfl
      · rw [if_neg hre]; exact Or.inr (Or.inl rfl)
    have hpr : (if rest.isEmpty then "    " else "│   ") = "└── " ∨
        (if rest.isEmpty then "    " else "│   ") = "├── " ∨
        (if rest.isEmpty then "    " else "│   ") = "│   " ∨
        (if rest.isEmpty then "    " else "│   ") = "    " := by
      by_cases hre : rest.isEmpty
      · rw [if_pos hre]; exact Or.inr (Or.inr (Or.inr rfl))
      · rw [if_neg hre]; exact Or.inr (Or.inr (Or.inl rfl))
    have horder : ∀ b : String, b = "└── " ∨ b = "├── " ∨ b = "│   " ∨ b = "    " →
        ∀ l0 : String, stripIndentL (b ++ l0).data = stripIndentL l0.data :=
      fun b hb l0 => stripIndentL_block_invariant b l0 hb
    refine ⟨⟨?_, ?_, ?_, ?_, ?_⟩, ?_⟩
    · intro x hx
      exact mono2 (mono1 hx)
    · intro u hu hnu v hv
      by_cases huc : u ∈ cres.2
      · exact mono2 (close1 u huc hnu v hv)
      · exact close2 u hu huc v hv
    · intro u hu hnu du hdu
      by_cases huc : u ∈ cres.2
      · obtain ⟨l0, hl0, hstrip⟩ := link1 u huc hnu du hdu
        obtain ⟨l, hlmem, hcase⟩ := prefixLines_mem_of hl0
        refine ⟨l, List.mem_append_left _ hlmem, ?_⟩
        have heq : stripIndentL l.data = stripIndentL l0.data := by
          rcases hcase with rfl | rfl
          · exact horder _ hpt l0
          · exact horder _ hpr l0
        rw [heq, hstrip]
      · obtain ⟨l, hlmem, hstrip⟩ := link2 u hu huc du hdu
        exact ⟨l, List.mem_append_right _ hlmem, hstrip⟩
    · intro dy hdy
      rw [List.countP_append]
      rw [countP_prefixLines (fun l => stripIndentL l.data == (lineFor none dy).data)
        (fun b hb l => plainB_block_invariant (lineFor none dy).data b hb l) _ _ hpt hpr]
      have h1 := count1 dy hdy
      have h2 := count2 dy hdy
      by_cases hA : dy.name ∈ cres.2 ∧ dy.name ∉ visited
      · rw [if_pos hA] at h1
        have hB : ¬ (dy.name ∈ res2.2 ∧ dy.name ∉ cres.2) := fun hB => hB.2 hA.1
        rw [if_neg hB] at h2
        rw [if_pos ⟨mono2 hA.1, hA.2⟩]
        omega
      · rw [if_neg hA] at h1
        by_cases hB : dy.name ∈ res2.2 ∧ dy.name ∉ cres.2
        · rw [if_pos hB] at h2
          have hT : dy.name ∈ res2.2 ∧ dy.name ∉ visited :=
            ⟨hB.1, fun hx => hB.2 (mono1 hx)⟩
          rw [if_pos hT]
          omega
        · rw [if_neg hB] at h2
          have h01 : cres.1.countP
              (fun l => stripIndentL l.data == (lineFor none dy).data) = 0 := by omega
          have h02 : res2.1.countP
              (fun l => stripIndentL l.data == (lineFor none dy).data) = 0 := by omega
          rw [h01, h02]
          exact Nat.zero_le _
    · intro l hl
      rcases List.mem_append.mp hl with hl' | hl'
      · obtain ⟨l0, hl0, hcase⟩ := prefixLines_mem hl'
        obtain ⟨d', hd', hform⟩ := shape1 l0 hl0
        refine ⟨d', hd', ?_⟩
        have heq : stripIndentL l.data = stripIndentL l0.data := by
          rcases hcase with rfl | rfl
          · exact horder _ hpt l0
          · exact horder _ hpr l0
        rw [heq]
        exact hform
      · exact shape2 l hl'
    · intro rp' hrp' cd' hcd'
      rcases List.mem_cons.mp hrp' with rfl | hrp''
      · rw [hlook] at hcd'
        injection hcd' with hcd'
        rw [← hcd']
        exact mono2 hcdv
      · exact htg2 rp' hrp'' cd' hcd'

/-- Aggregation of the C4 invariant over the whole root loop: some final
visited set V contains every unrequired package, is closed under dependency
edges, and controls the rendered lines exactly as in C4Post. -/
theorem renderRoots_c4 (g : DisplayDependencyGraph)
    (HG : ∀ p ∈ g.site_packages, goodName p.name)
    (HV : ∀ p ∈ g.site_packages, '(' ∉ p.version.data)
    (Hnodup : (g.site_packages.map InstalledDist.name).Nodup)
    (HM0 : ∀ p ∈ g.site_packages, ∀ m, p.metadata = some m →
      ∀ r ∈ m.requires_dist, r.marker = none)
    (Hprune : g.prune = [])
    (Hnd : g.no_dedupe = false)
    (Hdepth : g.site_packages.length ≤ g.depth)
    (Hwf : WellFounded (edgeStep g)) (req : List String) :
    ∀ (pkgs : List InstalledDist), (∀ p ∈ pkgs, p ∈ g.site_packages) →
      ∀ (visited lines0 out : List String),
        renderRoots g req pkgs visited lines0 = some out →
        ∃ V : List String,
          visited ⊆ V ∧
          lines0 ⊆ out ∧
          (∀ p ∈ pkgs, req.contains p.name = false → p.name ∈ V) ∧
          (∀ u ∈ V, u ∉ visited → ∀ v, edgeStep g u v → v ∈ V) ∧
          (∀ u ∈ V, u ∉ visited →
            ∀ du, dist_by_package_name g.site_packages u = some du →
              ∃ l ∈ out, stripIndentL l.data = (lineFor none du).data) ∧
          (∀ dy ∈ g.site_packages,
            out.countP (fun l => stripIndentL l.data == (lineFor none dy).data) ≤
              lines0.countP (fun l => stripIndentL l.data == (lineFor none dy).data) +
                (if dy.name ∈ V ∧ dy.name ∉ visited then 1 else 0)) ∧
          (∀ l ∈ out, l ∈ lines0 ∨
            ∃ d', dist_by_package_name g.site_packages d'.name = some d' ∧
              (stripIndentL l.data = (lineFor none d').data ∨
               stripIndentL l.data = (lineFor none d' ++ " (*)").data)) := by
  intro pkgs
  induction pkgs with
  | nil =>
    intro _ visited lines0 out hout
    injection hout with hout
    refine ⟨visited, fun x hx => hx, ?_, ?_, ?_, ?_, ?_, ?_⟩
    · rw [← hout]; exact fun l hl => hl
    · intro p hp; cases hp
    · intro u hu hnu; exact absurd hu hnu
    · intro u hu hnu; exact absurd hu hnu
    · intro dy _
      rw [← hout]
      exact Nat.le_add_right _ _
    · intro l hl
      rw [← hout] at hl
      exact Or.inl hl
  | cons p rest ih =>
    intro hsub visited lines0 out hout
    by_cases hreq2 : req.contains p.name
    · simp only [renderRoots, hreq2, if_true] at hout
      obtain ⟨V, hVmono, hVlines, hVroots, hVclose, hVlink, hVcount, hVshape⟩ :=
        ih (fun q hq => hsub q (List.mem_cons_of_mem p hq)) visited lines0 out hout
      refine ⟨V, hVmono, hVlines, ?_, hVclose, hVlink, hVcount, hVshape⟩
      intro q hq hqc
      rcases List.mem_cons.mp hq with rfl | hq'
      · rw [hreq2] at hqc
        cases hqc
      · exact hVroots q hq' hqc
    · simp only [renderRoots, hreq2, if_false, Bool.false_eq_true] at hout
      cases hv : visit g p visited [] none with
      | none =>
        rw [hv] at hout
        cases hout
      | some res =>
        rw [hv] at hout
        have hp : p ∈ g.site_packages := hsub p (List.mem_cons_self p rest)
        obtain ⟨⟨mono1, close1, link1, count1, shape1⟩, hpv⟩ :=
          visit_c4 g HG HV Hnodup HM0 Hprune Hnd Hdepth Hwf p visited [] none
            (dist_by_package_name_self Hnodup hp) rfl
            (List.chain'_singleton p.name) (fun x hx => absurd hx (List.not_mem_nil x))
            res hv
        obtain ⟨V, hVmono, hVlines, hVroots, hVclose, hVlink, hVcount, hVshape⟩ :=
          ih (fun q hq => hsub q (List.mem_cons_of_mem p hq)) res.2 (lines0 ++ res.1)
            out hout
        refine ⟨V, ?_, ?_, ?_, ?_, ?_, ?_, ?_⟩
        · exact fun x hx => hVmono (mono1 hx)
        · exact fun l hl => hVlines (List.mem_append_left _ hl)
        · intro q hq hqc
          rcases List.mem_cons.mp hq with rfl | hq'
          · exact hVmono hpv
          · exact hVroots q hq' hqc
        · intro u hu hnu v hv2
          by_cases hur : u ∈ res.2
          · exact hVmono (close1 u hur hnu v hv2)
          · exact hVclose u hu hur v hv2
        · intro u hu hnu du hdu
          by_cases hur : u ∈ res.2
          · obtain ⟨l, hlmem, hlstrip⟩ := link1 u hur hnu du hdu
            exact ⟨l, hVlines (List.mem_append_right _ hlmem), hlstrip⟩
          · exact hVlink u hu hur du hdu
        · intro dy hdy
          have hc2 := hVcount dy hdy
          rw [List.countP_append] at hc2
          have hc1 := count1 dy hdy
          by_cases hA : dy.name ∈ res.2 ∧ dy.name ∉ visited
          · rw [if_pos hA] at hc1
            have hB : ¬ (dy.name ∈ V ∧ dy.name ∉ res.2) := fun hB => hB.2 hA.1
            rw [if_neg hB] at hc2
            rw [if_pos ⟨hVmono hA.1, hA.2⟩]
            omega
          · rw [if_neg hA] at hc1
            by_cases hB : dy.name ∈ V ∧ dy.name ∉ res.2
            · rw [if_pos hB] at hc2
              have hT : dy.name ∈ V ∧ dy.name ∉ visited :=
                ⟨hB.1, fun hx => hB.2 (mono1 hx)⟩
              rw [if_pos hT]
              omega
            · rw [if_neg hB] at hc2
              have hle : out.countP
                  (fun l => stripIndentL l.data == (lineFor none dy).data) ≤
                  lines0.countP (fun l => stripIndentL l.data == (lineFor none dy).data) := by
                omega
              exact Nat.le_add_right_of_le hle
        · intro l hl
          rcases hVshape l hl with hmem | hfound
          · rcases List.mem_append.mp hmem with hm0 | hm1
            · exact Or.inl hm0
            · exact Or.inr (shape1 l hm1)
          · exact Or.inr hfound

/-- C4: on a collection with unique displayable names, no dependency cycles
(well-founded edge relation), no pruning, deduplication enabled, no
marker-gated requirements, and a depth of at least the number of installed
packages, every installed package appears in the rendered output at least
once (it even owns a fully-expanded base line), it is fully expanded at most
once (at most one unstarred base line), and no line for it carries the cycle
marker — so every repeated occurrence carries the dedup star, the only other
line shape the renderer produces. -/
theorem c4_coverage_dedup (g : DisplayDependencyGraph) (req lines : List String)
    (HG : ∀ p ∈ g.site_packages, goodName p.name)
    (HV : ∀ p ∈ g.site_packages, '(' ∉ p.version.data)
    (Hnodup : (g.site_packages.map InstalledDist.name).Nodup)
    (HM0 : ∀ p ∈ g.site_packages, ∀ m, p.metadata = some m →
      ∀ r ∈ m.requires_dist, r.marker = none)
    (Hprune : g.prune = [])
    (Hnd : g.no_dedupe = false)
    (Hdepth : g.site_packages.length ≤ g.depth)
    (Hwf : WellFounded (edgeStep g))
    (hreq : required_packages g.site_packages g.site_packages = some req)
    (hrender : render g = some lines) :
    ∀ p ∈ g.site_packages,
      (∃ l ∈ lines, stripIndentL l.data = (lineFor none p).data) ∧
      lines.countP (fun l => stripIndentL l.data == (lineFor none p).data) ≤ 1 ∧
      (∀ l ∈ lines, stripIndentL l.data ≠ (lineFor none p ++ " (#)").data) := by
  unfold render at hrender
  rw [hreq] at hrender
  obtain ⟨V, hVmono, hVlines, hVroots, hVclose, hVlink, hVcount, hVshape⟩ :=
    renderRoots_c4 g HG HV Hnodup HM0 Hprune Hnd Hdepth Hwf req g.site_packages
      (fun q hq => hq) [] [] lines hrender
  have hinV : ∀ x : String, (dist_by_package_name g.site_packages x).isSome → x ∈ V := by
    intro x
    induction x using WellFounded.induction Hwf with
    | _ x ihx =>
      intro hx
      obtain ⟨dx, hdx⟩ := Option.isSome_iff_exists.mp hx
      obtain ⟨hdmem, hdname⟩ := dist_by_package_name_mem hdx
      cases hcont : req.contains x with
      | false =>
        have := hVroots dx hdmem (by rw [hdname]; exact hcont)
        rw [hdname] at this
        exact this
      | true =>
        have hxreq : x ∈ req := List.mem_of_elem_eq_true hcont
        obtain ⟨q, hq, m, hqm, r, hr, hrname, hrsome⟩ :=
          (required_packages_mem g.site_packages req hreq x).mp hxreq
        have hqlook : dist_by_package_name g.site_packages q.name = some q :=
          dist_by_package_name_self Hnodup hq
        have hmk : r.marker = none := HM0 q hq m hqm r hr
        have hedge : edgeStep g q.name x := by
          refine ⟨q, m, r, hqlook, hqm, hr, hrname, ?_⟩
          simp only [hmk, Bool.and_true]
          exact hrsome
        have hq_inst : (dist_by_package_name g.site_packages q.name).isSome := by
          rw [hqlook]; rfl
        have hqV := ihx q.name hedge hq_inst
        exact hVclose q.name hqV (List.not_mem_nil q.name) x hedge
  intro p hp
  have hplook : dist_by_package_name g.site_packages p.name = some p :=
    dist_by_package_name_self Hnodup hp
  have hpV : p.name ∈ V := hinV p.name (by rw [hplook]; rfl)
  refine ⟨?_, ?_, ?_⟩
  · exact hVlink p.name hpV (List.not_mem_nil p.name) p hplook
  · have hc := hVcount p hp
    rw [List.countP_nil] at hc
    by_cases hcd : p.name ∈ V ∧ p.name ∉ ([] : List String)
    · rw [if_pos hcd] at hc
      omega
    · rw [if_neg hcd] at hc
      omega
  · intro l hl heq
    rcases hVshape l hl with hmem | ⟨d', hd', hform⟩
    · cases hmem
    · rcases hform with hplain | hstar
      · rw [heq] at hplain
        exact hash_ne_base p d' (HG d' (dist_by_package_name_mem hd').1)
          (HV d' (dist_by_package_name_mem hd').1) hplain
      · rw [heq] at hstar
        exact hash_ne_star p d' hstar

def c4x_falseMk : Marker := fun _ => false

def c4xA : InstalledDist :=
  ⟨"xa", "1", some ⟨[Requirement.mk "xb" (some c4x_falseMk)], []⟩⟩

def c4xB : InstalledDist := ⟨"xb", "1", some ⟨[], []⟩⟩

def c4x_g : DisplayDependencyGraph := ⟨[c4xA, c4xB], 255, [], false⟩

theorem c4x_no_edge : ∀ a b : String, ¬ edgeStep c4x_g a b := by
  intro a b hy
  obtain ⟨da, m, r, hda, hm, hr, hrn, hpred⟩ := hy
  obtain ⟨hmem, hname⟩ := dist_by_package_name_mem hda
  rcases List.mem_cons.mp hmem with rfl | hmem'
  · injection hm with hm
    rw [← hm] at hr
    have hr' := List.mem_singleton.mp hr
    rw [← hm, hr'] at hpred
    simp [markerEval, c4x_falseMk] at hpred
  · rcases List.mem_cons.mp hmem' with rfl | hmem''
    · injection hm with hm
      rw [← hm] at hr
      cases hr
    · cases hmem''

/-- C4 counterexample: the claim promises that on any collection with no
dependency cycles and no pruning every installed package appears in the
output at least once. Here xa requires xb under a constant-false marker: the
filtered graph has no edge at all (witnessed by well-foundedness), there is
no pruning and dedup is on, yet the render consists of the single line for
xa — xb, which the unconsulted-by-markers required_packages set still
records, appears nowhere, neither as a root nor nested. -/
theorem c4_counterexample :
    render c4x_g = some ["xa v1"] ∧
    WellFounded (edgeStep c4x_g) ∧
    c4x_g.prune = [] ∧
    c4x_g.no_dedupe = false ∧
    lineName "xa v1" ≠ "xb" ∧
    stripIndentL ("xa v1").data ≠ (lineFor none c4xB).data ∧
    stripIndentL ("xa v1").data ≠ (lineFor none c4xB ++ " (*)").data ∧
    stripIndentL ("xa v1").data ≠ (lineFor none c4xB ++ " (#)").data := by
  refine ⟨by rw [← renderExec_eq]; decide, ?_, rfl, rfl, by decide, by decide, by decide,
    by decide⟩
  constructor
  intro x
  constructor
  intro y hy
  exact absurd hy (c4x_no_edge y x)

def c4w_a : InstalledDist := ⟨"wa", "1", some ⟨[Requirement.mk "wb" none], []⟩⟩

def c4w_b : InstalledDist := ⟨"wb", "1", some ⟨[], []⟩⟩

def c4w_g : DisplayDependencyGraph := ⟨[c4w_a, c4w_b], 10, [], false⟩

theorem c4w_edge_shape : ∀ y x : String, edgeStep c4w_g y x → y = "wa" ∧ x = "wb" := by
  intro y x hy
  obtain ⟨da, m, r, hda, hm, hr, hrn, _⟩ := hy
  obtain ⟨hmem, hname⟩ := dist_by_package_name_mem hda
  rcases List.mem_cons.mp hmem with rfl | hmem'
  · injection hm with hm
    rw [← hm] at hr
    have hr' := List.mem_singleton.mp hr
    refine ⟨hname.symm, ?_⟩
    rw [← hrn, hr']
  · rcases List.mem_cons.mp hmem' with rfl | hmem''
    · injection hm with hm
      rw [← hm] at hr
      cases hr
    · cases hmem''

theorem c4w_wf : WellFounded (edgeStep c4w_g) := by
  constructor
  intro x
  constructor
  intro y hy
  have h1 := c4w_edge_shape y x hy
  constructor
  intro z hz
  have h2 := c4w_edge_shape z y hz
  exfalso
  rw [h1.1] at h2
  exact absurd h2.2 (by decide)

/-- C4 witness: the amended coverage and dedup-count statement evaluated on
the concrete acyclic two-package chain wa requires wb at depth ten: wb owns
its nested base line, is expanded at most once, and no line for it carries
the cycle marker. -/
theorem c4_witness :
    stripIndentL ("└── wb v1").data = (lineFor none c4w_b).data ∧
    (["wa v1", "└── wb v1"].countP
      (fun l => stripIndentL l.data == (lineFor none c4w_b).data)) ≤ 1 ∧
    stripIndentL ("wa v1").data ≠ (lineFor none c4w_b ++ " (#)").data := by
  have HM0 : ∀ p ∈ c4w_g.site_packages, ∀ m, p.metadata = some m →
      ∀ r ∈ m.requires_dist, r.marker = none := by
    intro p hp m hm r hr
    rcases List.mem_cons.mp hp with rfl | hp'
    · injection hm with hm
      rw [← hm] at hr
      rw [List.mem_singleton.mp hr]
    · rcases List.mem_cons.mp hp' with rfl | hp''
      · injection hm with hm
        rw [← hm] at hr
        cases hr
      · cases hp''
  obtain ⟨h1, h2, h3⟩ := c4_coverage_dedup c4w_g ["wb"] ["wa v1", "└── wb v1"]
    (by decide) (by decide) (by decide) HM0 rfl rfl (by decide) c4w_wf
    (by decide) (by rw [← renderExec_eq]; decide) c4w_b
    (List.mem_cons_of_mem c4w_a (List.mem_cons_self c4w_b []))
  exact ⟨by decide, h2, h3 "wa v1" (List.mem_cons_self _ _)⟩

/-! Claim C1: root selection. -/

def c1_falseMk : Marker := fun _ => false

def c1A : InstalledDist := ⟨"a", "1", some ⟨[Requirement.mk "b" (some c1_falseMk)], []⟩⟩

def c1B : InstalledDist := ⟨"b", "1", some ⟨[], []⟩⟩

def c1_graph : DisplayDependencyGraph := ⟨[c1A, c1B], 255, [], false⟩

/-- C1 counterexample: the claim says a package is rendered as a top-level
root iff, after filtering by installedness AND marker satisfaction, no other
package's requirement list targets it. Here b's only incoming requirement
carries the constant-false marker, so under the claimed filtering b has zero
incoming edges and must be a root; but the code's required_packages set is
built without consulting markers, so it contains b, b is not treated as a
root, and (since the marker-filtered edge also never renders during visit) b
appears nowhere in the output at all. -/
theorem c1_counterexample :
    render c1_graph = some ["a v1"] ∧
      required_packages c1_graph.site_packages c1_graph.site_packages = some ["b"] ∧
      markerEval c1_falseMk [] = false ∧
      markerEval c1_falseMk ["b"] = false := by
  refine ⟨by rw [← renderExec_eq]; decide, by decide, rfl, rfl⟩

/-- C1 amended: render starts a traversal exactly at the packages whose name
is not in required_packages, and a name is in required_packages iff some
installed package's requirement list targets it with the target itself
installed — the requirement's marker is NOT consulted for root selection
(marker filtering happens only per-edge inside visit). -/
theorem c1_amended_roots :
    ∀ (g : DisplayDependencyGraph) (req : List String),
      required_packages g.site_packages g.site_packages = some req →
      (∀ n : String, n ∈ req ↔
        ∃ p ∈ g.site_packages, ∃ m, p.metadata = some m ∧
          ∃ r ∈ m.requires_dist, r.name = n ∧
            (dist_by_package_name g.site_packages r.name).isSome) ∧
      render g = renderRoots g req g.site_packages [] [] := by
  intro g req hreq
  constructor
  · exact required_packages_mem g.site_packages req hreq
  · unfold render
    rw [hreq]

def c1w_p : InstalledDist := ⟨"wp", "1", some ⟨[Requirement.mk "wq" none], []⟩⟩

def c1w_q : InstalledDist := ⟨"wq", "1", some ⟨[], []⟩⟩

def c1w_g : DisplayDependencyGraph := ⟨[c1w_p, c1w_q], 9, [], false⟩

/-- C1 witness: the amended root characterization evaluated on a concrete
two-package collection whose required set is exactly the required name. -/
theorem c1_witness : "wq" ∈ ["wq"] ↔
    ∃ p ∈ c1w_g.site_packages, ∃ m, p.metadata = some m ∧
      ∃ r ∈ m.requires_dist, r.name = "wq" ∧
        (dist_by_package_name c1w_g.site_packages r.name).isSome :=
  (c1_amended_roots c1w_g ["wq"] (by decide)).1 "wq"

/-! Claim C7: the depth limit. -/

def c7w_a : InstalledDist := ⟨"a", "1", some ⟨[Requirement.mk "b" none], []⟩⟩

def c7w_b : InstalledDist := ⟨"b", "1", some ⟨[Requirement.mk "c" none], []⟩⟩

def c7w_c : InstalledDist := ⟨"c", "1", some ⟨[], []⟩⟩

def c7w_g : DisplayDependencyGraph := ⟨[c7w_a, c7w_b, c7w_c], 1, [], false⟩

/-- C7: for a configured maximum depth, no rendered line carries a nesting
level (number of leading connector blocks) greater than the depth, provided
the package names are displayable (nonempty, free of connector characters);
and — second conjunct — a visit entered with the ancestor path already at the
depth limit emits at most its own single line, every child call being
suppressed by the depth short-circuit even when children exist. -/
theorem c7_depth_bound :
    (∀ (g : DisplayDependencyGraph) (lines : List String),
        (∀ p ∈ g.site_packages, goodName p.name) →
        render g = some lines → ∀ l ∈ lines, countBlocks l ≤ g.depth) ∧
    (∀ (g : DisplayDependencyGraph) (d : InstalledDist) (visited path : List String)
        (extra : Option String) (res : List String × List String),
        visit g d visited path extra = some res → path.length = g.depth →
        res.1.length ≤ 1) :=
  ⟨fun g lines HG h => render_count_bound g HG lines h,
   fun g d visited path extra res h hd => visit_at_depth_short g d visited path extra res h hd⟩

/-- C7 witness: at depth one, the chain a requires b requires c renders the
root and one nested line (c is suppressed), every line within the bound; and
a concrete visit at path length equal to the depth emits exactly one line. -/
theorem c7_witness :
    countBlocks "└── b v1" ≤ 1 ∧
      ((["a v1"], ["a"]) : List String × List String).1.length ≤ 1 :=
  ⟨c7_depth_bound.1 c7w_g ["a v1", "└── b v1"] (by decide)
      (by rw [← renderExec_eq]; decide) "└── b v1" (by decide),
   c7_depth_bound.2 c7w_g c7w_a [] ["z"] none (["a v1"], ["a"])
      (by rw [← visitExec_eq c7w_g 2 c7w_a [] ["z"] none (by decide)]; decide) rfl⟩

/-! Claim C10: the depth argument of pip_tree is an 8-bit unsigned integer. -/

def c10w_a : InstalledDist := ⟨"wa", "1", some ⟨[], []⟩⟩

/-- C10: for every invocation of the public entry point pip_tree, whose depth
argument is a u8 (modelled by reduction modulo 256) widened to usize, no
rendered line has nesting level greater than 255: no configuration makes the
display depth unbounded. -/
theorem c10_depth_u8 :
    ∀ (depth : Nat) (prune : List String) (no_dedupe : Bool)
      (site_packages : List InstalledDist) (lines : List String),
      (∀ p ∈ site_packages, goodName p.name) →
      pip_tree depth prune no_dedupe site_packages = some lines →
      ∀ l ∈ lines, countBlocks l ≤ 255 := by
  intro depth prune no_dedupe site_packages lines HG h l hl
  have hb : countBlocks l ≤ depth % 256 := render_count_bound _ HG lines h l hl
  omega

/-- C10 witness: pip_tree called with a depth argument far beyond 255 still
renders every line within 255 levels of nesting. -/
theorem c10_witness : countBlocks "wa v1" ≤ 255 :=
  c10_depth_u8 1000 [] false [c10w_a] ["wa v1"] (by decide)
    (by unfold pip_tree; rw [← renderExec_eq]; decide) "wa v1" (by decide)

/-! Claim C6: inverted edges. The graph builder of src/ has no invert
parameter at all (DisplayDependencyGraph::new takes only site_packages,
depth, prune and no_dedupe), so the inverted builder is modelled from the
spec and rendered with the unchanged renderer. -/

/-- Modelled from the spec: the post-filter dependency-edge test of the
builder (section 4.1 — edge from requirer q to target p exists iff p is
installed and the requirement's marker is satisfied against q's own extras),
used to rebuild the collection with edges reversed. -/
def requiresEdge (pkgs : List InstalledDist) (q p : InstalledDist) : Bool :=
  match q.metadata with
  | none => false
  | some m => m.requires_dist.any (fun r =>
      r.name == p.name && (dist_by_package_name pkgs r.name).isSome &&
      (match r.marker with
       | none => true
       | some mk => markerEval mk m.provides_extras))

/-- Modelled from the spec: the invert = true mode of the graph builder,
absent from src/. Per section 4.1, when invert is true the builder stores
each dependency edge in the reverse direction (target → requirer) so that the
same renderer can be reused; this model realizes that by rebuilding the
installed collection so that each package p requires exactly the packages
that required p. -/
def invertBuild (pkgs : List InstalledDist) : List InstalledDist :=
  pkgs.map (fun p =>
    ⟨p.name, p.version,
      some ⟨(pkgs.filter (fun q => requiresEdge pkgs q p)).map
        (fun q => Requirement.mk q.name none), []⟩⟩)

def c6A : InstalledDist := ⟨"a", "1", some ⟨[Requirement.mk "b" none], []⟩⟩

def c6B : InstalledDist := ⟨"b", "2", some ⟨[], []⟩⟩

/-- C6: on the collection where a requires b, the plain build renders a as
root with child b, while the spec-modelled inverted build stores the edge in
the reverse direction (b to a), so the same renderer produces root b with
child a — the spec's inversion scenario. -/
theorem c6_inverted_render :
    render { site_packages := [c6A, c6B], depth := 255, prune := [],
             no_dedupe := false } = some ["a v1", "└── b v2"] ∧
    render { site_packages := invertBuild [c6A, c6B], depth := 255, prune := [],
             no_dedupe := false } = some ["b v2", "└── a v1"] := by
  constructor
  · rw [← renderExec_eq]; decide
  · rw [← renderExec_eq]; decide

end UvPipTree
